import Mathlib

/-
Verification of the evacuation-route finder (finaledit.py).

The embedding models node keys as natural numbers.  A graph stores an
association list from node keys to their `delay` attribute and a list of
weighted undirected edges, mirroring the networkx graph used by the script.
Weights and delays are integers (Python ints).  The global `obstacles` set is
a list of node keys and `blocked_edges` is a list of oriented pairs; as in
the script, blocked-edge membership is tested in both orientations.

`find_path` is a direct shallow embedding of the Dijkstra loop of the script:
a priority queue of (cost, node) pairs popped by minimal lexicographic order
(the observable behaviour of `heapq` on such tuples), relaxation that skips
obstacle targets and blocked edges and charges `weight + delay(next)`, early
exit when `end` is popped, and predecessor-chain path reconstruction that
returns `([], 0)` when the chain breaks.  The Python `while` loops are given
explicit fuel; `find_path` passes a fuel bound proved sufficient below for
graphs meeting the spec's data-model invariants (positive weights,
non-negative delays), so on those graphs the embedding computes exactly what
the script computes.
-/

namespace Evac

structure Graph where
  nodes : List (Nat × Int)
  edges : List (Nat × Nat × Int)
deriving Repr, DecidableEq

def Graph.nodeKeys (g : Graph) : List Nat := g.nodes.map Prod.fst

def Graph.hasNode (g : Graph) (k : Nat) : Bool := g.nodeKeys.contains k

/-- `graph.nodes[k].get('delay', 0)`. -/
def Graph.delay (g : Graph) (k : Nat) : Int :=
  match g.nodes.find? (fun p => p.1 == k) with
  | some p => p.2
  | none => 0

/-- `graph.neighbors(u)`: endpoints opposite `u` on edges incident to `u`. -/
def Graph.neighbors (g : Graph) (u : Nat) : List Nat :=
  g.edges.filterMap (fun e =>
    if e.1 == u then some e.2.1 else if e.2.1 == u then some e.1 else none)

/-- `graph.edges[u, v]['weight']` (undirected lookup). -/
def Graph.weight (g : Graph) (u v : Nat) : Int :=
  match g.edges.find? (fun e => (e.1 == u && e.2.1 == v) || (e.1 == v && e.2.1 == u)) with
  | some e => e.2.2
  | none => 0

/-- Undirected adjacency. -/
def Graph.adj (g : Graph) (u v : Nat) : Bool :=
  g.edges.any (fun e => (e.1 == u && e.2.1 == v) || (e.1 == v && e.2.1 == u))

/-- State of the Dijkstra loop: the heap, the predecessor map `visited`,
and the tentative cost map `costs`. -/
structure DState where
  queue : List (Int × Nat)
  visited : Nat → Option Nat
  costs : Nat → Option Int

/-- Lexicographic comparison on (cost, node) pairs, the order `heapq` uses. -/
def pairLe (a b : Int × Nat) : Bool :=
  decide (a.1 < b.1) || (a.1 == b.1 && decide (a.2 ≤ b.2))

/-- `heapq.heappop`: remove a minimal element (first occurrence). -/
def popMin : List (Int × Nat) → Option ((Int × Nat) × List (Int × Nat))
  | [] => none
  | x :: xs =>
    match popMin xs with
    | none => some (x, [])
    | some (m, rest) => if pairLe x m then some (x, xs) else some (m, x :: rest)

/-- One iteration of the inner `for next_node in graph.neighbors(current)` body. -/
def relaxOne (g : Graph) (obst : List Nat) (blocked : List (Nat × Nat))
    (current n : Nat) (s : DState) : DState :=
  if obst.contains n || blocked.contains (current, n) || blocked.contains (n, current) then
    s
  else
    let c := (s.costs current).getD 0 + g.weight current n + g.delay n
    match s.costs n with
    | none =>
      { queue := (c, n) :: s.queue
        visited := fun x => if x = n then some current else s.visited x
        costs := fun x => if x = n then some c else s.costs x }
    | some cn =>
      if c < cn then
        { queue := (c, n) :: s.queue
          visited := fun x => if x = n then some current else s.visited x
          costs := fun x => if x = n then some c else s.costs x }
      else s

/-- The whole neighbor loop. -/
def relaxAll (g : Graph) (obst : List Nat) (blocked : List (Nat × Nat))
    (current : Nat) : List Nat → DState → DState
  | [], s => s
  | n :: ns, s => relaxAll g obst blocked current ns (relaxOne g obst blocked current n s)

inductive StepRes where
  | stop (s : DState)
  | next (s : DState)

/-- One iteration of the `while queue` loop: pop, test for `end`, relax. -/
def dstep (g : Graph) (obst : List Nat) (blocked : List (Nat × Nat))
    (endN : Nat) (s : DState) : StepRes :=
  match popMin s.queue with
  | none => .stop s
  | some ((_, current), rest) =>
    if current = endN then .stop { s with queue := rest }
    else .next (relaxAll g obst blocked current (g.neighbors current) { s with queue := rest })

/-- The `while queue` loop with fuel; `none` means the fuel ran out. -/
def dloop (g : Graph) (obst : List Nat) (blocked : List (Nat × Nat)) (endN : Nat) :
    Nat → DState → Option DState
  | fuel, s =>
    match dstep g obst blocked endN s with
    | .stop s' => some s'
    | .next s' =>
      match fuel with
      | 0 => none
      | f + 1 => dloop g obst blocked endN f s'

/-- The `while node != start` reconstruction loop.  In the script, node keys
are non-empty coordinate tuples, so `if not node` fires exactly when
`visited.get(node)` returned `None`; that is the `none` branch here. -/
def buildPath (visited : Nat → Option Nat) (start : Nat) :
    Nat → Nat → List Nat → Option (List Nat)
  | 0, _, _ => none
  | fuel + 1, node, acc =>
    if node = start then some (start :: acc)
    else
      match visited node with
      | none => none
      | some prev => buildPath visited start fuel prev (node :: acc)

/-- Node keys mentioned anywhere in the graph, plus the start node. -/
def Graph.support (g : Graph) (start : Nat) : List Nat :=
  (start :: (g.nodeKeys ++ g.edges.flatMap (fun e => [e.1, e.2.1]))).dedup

/-- An upper bound on the cost added by one relaxation step. -/
def Graph.maxStep (g : Graph) : Int :=
  (g.edges.map (fun e => max 0 e.2.2)).sum + (g.nodes.map (fun p => max 0 p.2)).sum

/-- Value assigned in the loop-variant to an unassigned node. -/
def potNone (g : Graph) (start : Nat) : Nat :=
  (g.support start).length * (g.maxStep).toNat + 1

/-- Fuel for the main loop, proved sufficient below. -/
def fuelBound (g : Graph) (start : Nat) : Nat :=
  (g.support start).length * potNone g start + 2

/-- Fuel for the reconstruction loop, proved sufficient below. -/
def pathFuel (g : Graph) (start : Nat) : Nat :=
  potNone g start + 1

/-- `find_path(graph, start, end)` from the script, with `obstacles` and
`blocked_edges` passed explicitly instead of read from globals. -/
def find_path (g : Graph) (obst : List Nat) (blocked : List (Nat × Nat))
    (start endN : Nat) : List Nat × Int :=
  let s0 : DState :=
    { queue := [(0, start)], visited := fun _ => none
      costs := fun k => if k = start then some 0 else none }
  match dloop g obst blocked endN (fuelBound g start) s0 with
  | none => ([], 0)
  | some s =>
    match buildPath s.visited start (pathFuel g start) endN [] with
    | none => ([], 0)
    | some p => (p, (s.costs endN).getD 0)

/-! ### Mutation operations from the event handlers -/

/-- Global mutable state: the graph plus the two exclusion sets. -/
structure AppState where
  graph : Graph
  obstacles : List Nat
  blocked : List (Nat × Nat)
deriving Repr, DecidableEq

/-- `graph.remove_node(node)` (networkx): drops the node and incident edges. -/
def Graph.removeNode (g : Graph) (k : Nat) : Graph :=
  { nodes := g.nodes.filter (fun p => !(p.1 == k))
    edges := g.edges.filter (fun e => !(e.1 == k) && !(e.2.1 == k)) }

/-- The `K_d` handler in `edit`: it only calls `graph.remove_node(node)`;
the obstacle and blocked-edge sets are not touched. -/
def deleteNodeEvent (st : AppState) (k : Nat) : AppState :=
  { st with graph := st.graph.removeNode k }

/-- The edge-click handler in `main`: membership is tested in both
orientations, removal discards both orientations, insertion adds the clicked
orientation. -/
def toggleBlockedEdge (blocked : List (Nat × Nat)) (e : Nat × Nat) : List (Nat × Nat) :=
  if blocked.contains e || blocked.contains (e.2, e.1) then
    (blocked.filter (fun x => !(x == e))).filter (fun x => !(x == (e.2, e.1)))
  else
    e :: blocked

/-- Orientation-independent blocked status, as every reader of the set
(`find_path`, `draw`, the toggle itself) tests it. -/
def blockedMem (blocked : List (Nat × Nat)) (u v : Nat) : Bool :=
  blocked.contains (u, v) || blocked.contains (v, u)

/-- Overwrite a node's delay attribute. -/
def Graph.setDelay (g : Graph) (k : Nat) (d : Int) : Graph :=
  { g with nodes := g.nodes.map (fun p => if p.1 = k then (p.1, d) else p) }

/-- Scroll-up handler: `graph.nodes[node]['delay'] += 1`. -/
def scrollUp (g : Graph) (k : Nat) : Graph := g.setDelay k (g.delay k + 1)

/-- Scroll-down handler: `graph.nodes[node]['delay'] = max(0, delay - 1)`. -/
def scrollDown (g : Graph) (k : Nat) : Graph := g.setDelay k (max 0 (g.delay k - 1))

/-- Apply one scroll event (`true` = scroll up). -/
def applyScroll (g : Graph) (op : Bool × Nat) : Graph :=
  if op.1 then scrollUp g op.2 else scrollDown g op.2

/-! ### Walks in the graph under the current exclusion sets -/

/-- One traversal step the algorithm allows: an edge exists, the target is
not an obstacle, and neither orientation of the edge is blocked. -/
def allowedStep (g : Graph) (obst : List Nat) (blocked : List (Nat × Nat))
    (u v : Nat) : Prop :=
  g.adj u v = true ∧ obst.contains v = false ∧
    blocked.contains (u, v) = false ∧ blocked.contains (v, u) = false

instance (g : Graph) (obst : List Nat) (blocked : List (Nat × Nat)) (u v : Nat) :
    Decidable (allowedStep g obst blocked u v) := by
  unfold allowedStep; infer_instance

/-- `IsWalk g obst blocked a l`: starting at `a`, the nodes of `l` are visited
in order, each reached by an allowed step. -/
inductive IsWalk (g : Graph) (obst : List Nat) (blocked : List (Nat × Nat)) :
    Nat → List Nat → Prop where
  | nil (a : Nat) : IsWalk g obst blocked a []
  | cons {a b : Nat} {rest : List Nat} :
      allowedStep g obst blocked a b → IsWalk g obst blocked b rest →
      IsWalk g obst blocked a (b :: rest)

/-- Cost of a walk: each step pays the edge weight plus the delay of the node
it arrives at; the delay of the first node is never charged. -/
def walkCost (g : Graph) : Nat → List Nat → Int
  | _, [] => 0
  | a, b :: rest => g.weight a b + g.delay b + walkCost g b rest

/-- `e` is reachable from `s` by a walk through allowed steps. -/
def Reach (g : Graph) (obst : List Nat) (blocked : List (Nat × Nat)) (s e : Nat) : Prop :=
  ∃ q, IsWalk g obst blocked s q ∧ (s :: q).getLast? = some e

end Evac

namespace Evac

/-! ### Concrete graphs used in scenarios and witnesses -/

/-- The 4-node line A-B-C-D (keys 0-3) with weights 1,1,1 and zero delays. -/
def lineGraph : Graph := ⟨[(0, 0), (1, 0), (2, 0), (3, 0)], [(0, 1, 1), (1, 2, 1), (2, 3, 1)]⟩

/-- The same line with delay 5 at node C (key 2). -/
def lineGraphDelay : Graph := ⟨[(0, 0), (1, 0), (2, 5), (3, 0)], [(0, 1, 1), (1, 2, 1), (2, 3, 1)]⟩

/-- Two nodes, one edge; node 0 is an obstacle and edge (0,1) is blocked. -/
def removalState : AppState := ⟨⟨[(0, 0), (1, 0)], [(0, 1, 2)]⟩, [0], [(0, 1)]⟩

/-! ### start = end -/

/-- When `start = end`, the first pop of the queue is `end`, the loop breaks at
once, and reconstruction stops immediately: the result is `([start], 0)`. -/
theorem find_path_refl (g : Graph) (obst : List Nat) (blocked : List (Nat × Nat)) (s : Nat) :
    find_path g obst blocked s s = ([s], 0) := by
  simp [find_path, dloop, dstep, popMin, buildPath, pathFuel]

/-- C3: for every graph `g` and every node `s` of `g`, `find_path g s s`
returns the single-node path `[s]` with total cost 0, regardless of `s`'s
obstacle status, delay value, or incident blocked edges. -/
theorem find_path_self (g : Graph) (obst : List Nat) (blocked : List (Nat × Nat)) (s : Nat)
    (_h : g.hasNode s = true) :
    find_path g obst blocked s s = ([s], 0) :=
  find_path_refl g obst blocked s

/-- Witness for C3 at a concrete input: node 2 of the line graph, which is an
obstacle with an incident blocked edge, still yields `([2], 0)`. -/
theorem find_path_self_witness :
    lineGraph.hasNode 2 = true ∧ find_path lineGraph [2] [(1, 2)] 2 2 = ([2], 0) :=
  ⟨by decide, find_path_self lineGraph [2] [(1, 2)] 2 (by decide)⟩

/-! ### The line-graph scenario -/

/-- C7: on the 4-node line with unit weights and zero delays, `find_path A D`
returns `([A,B,C,D], 3)`; with edge (B,C) blocked it returns `([], 0)`; with
the edge unblocked and delay(C) = 5 it returns `([A,B,C,D], 8)`. -/
theorem find_path_line_scenario :
    find_path lineGraph [] [] 0 3 = ([0, 1, 2, 3], 3) ∧
    find_path lineGraph [] [(1, 2)] 0 3 = ([], 0) ∧
    find_path lineGraphDelay [] [] 0 3 = ([0, 1, 2, 3], 8) := by
  refine ⟨by decide, by decide, by decide⟩

/-! ### Node deletion (C2) -/

/-- C2: the delete handler removes the node and its incident edges, but at
this input it leaves key 0 in the obstacle set and leaves the blocked-edge
entry (0,1) referencing the removed key, contradicting the claim that both
are purged. -/
theorem deleteNodeEvent_leaves_orphans :
    (deleteNodeEvent removalState 0).graph.hasNode 0 = false ∧
    (deleteNodeEvent removalState 0).graph.edges = [] ∧
    (deleteNodeEvent removalState 0).obstacles.contains 0 = true ∧
    (deleteNodeEvent removalState 0).blocked.contains (0, 1) = true := by
  refine ⟨by decide, by decide, by decide, by decide⟩

/-! ### Blocked-edge toggling (C6) -/

/-- C6 counterexample: starting from the blocked-edge set `{(0,1)}`, toggling
(0,1) and then (1,0) yields `{(1,0)}`, which is not the original state: the
stored orientation flipped, and the pair (0,1) itself is no longer a member. -/
theorem toggleBlockedEdge_pair_not_restored :
    toggleBlockedEdge (toggleBlockedEdge [((0 : Nat), (1 : Nat))] (0, 1)) (1, 0) = [(1, 0)] ∧
    toggleBlockedEdge (toggleBlockedEdge [((0 : Nat), (1 : Nat))] (0, 1)) (1, 0) ≠
      [((0 : Nat), (1 : Nat))] ∧
    (toggleBlockedEdge (toggleBlockedEdge [((0 : Nat), (1 : Nat))] (0, 1)) (1, 0)).contains
      (0, 1) = false ∧
    ([((0 : Nat), (1 : Nat))] : List (Nat × Nat)).contains (0, 1) = true := by
  refine ⟨by decide, by decide, by decide, by decide⟩

lemma contains_eq_mem (l : List (Nat × Nat)) (x : Nat × Nat) :
    l.contains x = true ↔ x ∈ l :=
  List.elem_iff


lemma mem_toggleBlockedEdge (L : List (Nat × Nat)) (p q : Nat) (x : Nat × Nat) :
    x ∈ toggleBlockedEdge L (p, q) ↔
      (if (p, q) ∈ L ∨ (q, p) ∈ L then x ∈ L ∧ ¬x = (p, q) ∧ ¬x = (q, p)
       else x = (p, q) ∨ x ∈ L) := by
  by_cases hL : (p, q) ∈ L ∨ (q, p) ∈ L
  · rw [if_pos hL]
    have hc : (L.contains (p, q) || L.contains ((p, q).2, (p, q).1)) = true := by
      rcases hL with hL | hL <;> simp [contains_eq_mem, hL]
    simp only [toggleBlockedEdge, hc, if_pos]
    simp only [List.mem_filter, Bool.and_eq_true, Bool.not_eq_eq_eq_not, Bool.not_true,
      beq_eq_false_iff_ne, Ne]
    tauto
  · rw [if_neg hL]
    push_neg at hL
    simp only [toggleBlockedEdge]
    rw [if_neg (by simp [contains_eq_mem, hL.1, hL.2])]
    simp [List.mem_cons]

/-- C6 amended: toggling (u,v) and then (v,u) restores the orientation-
independent blocked status of every pair; only the stored orientation of the
re-added pair may differ from the original state. -/
theorem toggleBlockedEdge_toggle_toggle_mem (B : List (Nat × Nat)) (u v a b : Nat) :
    blockedMem (toggleBlockedEdge (toggleBlockedEdge B (u, v)) (v, u)) a b =
      blockedMem B a b := by
  rw [Bool.eq_iff_iff]
  simp only [blockedMem, Bool.or_eq_true, contains_eq_mem]
  by_cases h : (u, v) ∈ B ∨ (v, u) ∈ B
  · have hT1 : ∀ x, x ∈ toggleBlockedEdge B (u, v) ↔
        x ∈ B ∧ ¬x = (u, v) ∧ ¬x = (v, u) := by
      intro x; rw [mem_toggleBlockedEdge, if_pos h]
    have hcond : ¬((v, u) ∈ toggleBlockedEdge B (u, v) ∨
        (u, v) ∈ toggleBlockedEdge B (u, v)) := by
      rw [hT1, hT1]; rintro (⟨-, -, h'⟩ | ⟨-, h', -⟩) <;> exact h' rfl
    have hT2 : ∀ x, x ∈ toggleBlockedEdge (toggleBlockedEdge B (u, v)) (v, u) ↔
        x = (v, u) ∨ (x ∈ B ∧ ¬x = (u, v) ∧ ¬x = (v, u)) := by
      intro x
      rw [mem_toggleBlockedEdge, if_neg hcond]
      constructor
      · rintro (h' | h'); · exact .inl h'
        · exact .inr ((hT1 x).mp h')
      · rintro (h' | h'); · exact .inl h'
        · exact .inr ((hT1 x).mpr h')
    rw [hT2, hT2]
    constructor
    · rintro ((e | ⟨hm, -, -⟩) | (e | ⟨hm, -, -⟩))
      · rw [Prod.mk.injEq] at e; obtain ⟨rfl, rfl⟩ := e; tauto
      · exact .inl hm
      · rw [Prod.mk.injEq] at e; obtain ⟨rfl, rfl⟩ := e; tauto
      · exact .inr hm
    · rintro (hm | hm)
      · by_cases e1 : (a, b) = (u, v)
        · rw [Prod.mk.injEq] at e1; obtain ⟨rfl, rfl⟩ := e1
          exact .inr (.inl rfl)
        · by_cases e2 : (a, b) = (v, u)
          · exact .inl (.inl e2)
          · exact .inl (.inr ⟨hm, e1, e2⟩)
      · by_cases e1 : (b, a) = (u, v)
        · rw [Prod.mk.injEq] at e1; obtain ⟨rfl, rfl⟩ := e1
          exact .inl (.inl rfl)
        · by_cases e2 : (b, a) = (v, u)
          · exact .inr (.inl e2)
          · exact .inr (.inr ⟨hm, e1, e2⟩)
  · have hT1 : ∀ x, x ∈ toggleBlockedEdge B (u, v) ↔ x = (u, v) ∨ x ∈ B := by
      intro x; rw [mem_toggleBlockedEdge, if_neg h]
    push_neg at h
    have hcond : (v, u) ∈ toggleBlockedEdge B (u, v) ∨
        (u, v) ∈ toggleBlockedEdge B (u, v) := by
      exact .inr ((hT1 _).mpr (.inl rfl))
    have hT2 : ∀ x, x ∈ toggleBlockedEdge (toggleBlockedEdge B (u, v)) (v, u) ↔
        (x = (u, v) ∨ x ∈ B) ∧ ¬x = (v, u) ∧ ¬x = (u, v) := by
      intro x
      rw [mem_toggleBlockedEdge, if_pos hcond]
      rw [hT1]
    rw [hT2, hT2]
    constructor
    · rintro (⟨e | hm, -, ne⟩ | ⟨e | hm, -, ne⟩)
      · exact absurd e ne
      · exact .inl hm
      · exact absurd e ne
      · exact .inr hm
    · rintro (hm | hm)
      · refine .inl ⟨.inr hm, fun e => ?_, fun e => ?_⟩ <;>
          (rw [Prod.mk.injEq] at e; obtain ⟨rfl, rfl⟩ := e) <;> tauto
      · refine .inr ⟨.inr hm, fun e => ?_, fun e => ?_⟩ <;>
          (rw [Prod.mk.injEq] at e; obtain ⟨rfl, rfl⟩ := e) <;> tauto

end Evac

namespace Evac

/-! ### Delay mutation (C9) -/

lemma find?_key_map_setDelay (l : List (Nat × Int)) (k : Nat) (d : Int) :
    (l.map (fun p => if p.1 = k then (p.1, d) else p)).find? (fun p => p.1 == k) =
      (l.find? (fun p => p.1 == k)).map (fun p => (p.1, d)) := by
  induction l with
  | nil => simp
  | cons p t ih =>
    by_cases h : p.1 = k
    · simp [List.find?_cons, h, ih]
    · simp [List.find?_cons, h, beq_iff_eq, ih]

lemma find?_key_map_setDelay_ne (l : List (Nat × Int)) (j k : Nat) (d : Int) (hjk : j ≠ k) :
    (l.map (fun p => if p.1 = j then (p.1, d) else p)).find? (fun p => p.1 == k) =
      l.find? (fun p => p.1 == k) := by
  induction l with
  | nil => simp
  | cons p t ih =>
    by_cases h : p.1 = j
    · have hk : ¬p.1 = k := by rw [h]; exact hjk
      simp [List.find?_cons, h, beq_iff_eq, hjk, hk, ih]
    · by_cases hk : p.1 = k
      · simp [List.find?_cons, h, beq_iff_eq, hjk, Ne.symm hjk, hk, ih]
      · simp [List.find?_cons, h, beq_iff_eq, hk, ih]

lemma delay_setDelay_self (g : Graph) (k : Nat) (d : Int) (h : g.hasNode k = true) :
    (g.setDelay k d).delay k = d := by
  have hmem : k ∈ g.nodes.map Prod.fst := by
    have := List.elem_iff.mp h
    rwa [Graph.nodeKeys] at this
  obtain ⟨p, hp, hpk⟩ := List.mem_map.mp hmem
  have hfind : (g.nodes.find? (fun p => p.1 == k)).isSome := by
    rw [List.find?_isSome]
    exact ⟨p, hp, by simp [hpk]⟩
  unfold Graph.delay Graph.setDelay
  rw [find?_key_map_setDelay]
  obtain ⟨q, hq⟩ := Option.isSome_iff_exists.mp hfind
  simp [hq]

lemma delay_setDelay_ne (g : Graph) (j k : Nat) (d : Int) (hjk : j ≠ k) :
    (g.setDelay j d).delay k = g.delay k := by
  unfold Graph.delay Graph.setDelay
  rw [find?_key_map_setDelay_ne _ _ _ _ hjk]

lemma delay_setDelay_not_node (g : Graph) (k : Nat) (d : Int) (h : g.hasNode k = false) :
    (g.setDelay k d).delay k = g.delay k := by
  have hfind : g.nodes.find? (fun p => p.1 == k) = none := by
    rw [List.find?_eq_none]
    intro p hp
    simp only [beq_iff_eq]
    intro hpk
    have hk : g.hasNode k = true := by
      rw [Graph.hasNode]
      refine List.elem_iff.mpr ?_
      rw [Graph.nodeKeys]
      exact List.mem_map.mpr ⟨p, hp, hpk⟩
    rw [h] at hk
    exact Bool.false_ne_true hk
  unfold Graph.delay Graph.setDelay
  rw [find?_key_map_setDelay, hfind]
  rfl

lemma applyScroll_false (g : Graph) (j : Nat) :
    applyScroll g (false, j) = g.setDelay j (max 0 (g.delay j - 1)) := rfl

lemma applyScroll_true (g : Graph) (j : Nat) :
    applyScroll g (true, j) = g.setDelay j (g.delay j + 1) := rfl

lemma delay_applyScroll_nonneg (g : Graph) (op : Bool × Nat) (k : Nat)
    (h : 0 ≤ g.delay k) : 0 ≤ (applyScroll g op).delay k := by
  obtain ⟨b, j⟩ := op
  by_cases hjk : j = k
  · subst hjk
    cases hn : g.hasNode j with
    | false =>
      cases b
      · rw [applyScroll_false, delay_setDelay_not_node _ _ _ hn]; exact h
      · rw [applyScroll_true, delay_setDelay_not_node _ _ _ hn]; exact h
    | true =>
      cases b
      · rw [applyScroll_false, delay_setDelay_self _ _ _ hn]; exact le_max_left 0 _
      · rw [applyScroll_true, delay_setDelay_self _ _ _ hn]; omega
  · cases b
    · rw [applyScroll_false, delay_setDelay_ne _ _ _ _ hjk]; exact h
    · rw [applyScroll_true, delay_setDelay_ne _ _ _ _ hjk]; exact h

lemma delay_foldl_scroll_nonneg (ops : List (Bool × Nat)) (g : Graph) (k : Nat)
    (h : 0 ≤ g.delay k) : 0 ≤ (ops.foldl applyScroll g).delay k := by
  induction ops generalizing g with
  | nil => exact h
  | cons op rest ih => exact ih _ (delay_applyScroll_nonneg g op k h)

/-- C9: for a node present in the graph with delay `d ≥ 0`, the scroll-up
handler sets the delay to `max 0 (d + 1)` and the scroll-down handler sets it
to `max 0 (d - 1)`; moreover the delay stays non-negative under any sequence
of delay mutations. -/
theorem set_delay_spec (g : Graph) (k : Nat) (h : g.hasNode k = true)
    (hd : 0 ≤ g.delay k) :
    (scrollUp g k).delay k = max 0 (g.delay k + 1) ∧
    (scrollDown g k).delay k = max 0 (g.delay k + (-1)) ∧
    ∀ ops : List (Bool × Nat), 0 ≤ (ops.foldl applyScroll g).delay k := by
  refine ⟨?_, ?_, fun ops => delay_foldl_scroll_nonneg ops g k hd⟩
  · rw [scrollUp, delay_setDelay_self _ _ _ h]
    omega
  · rw [scrollDown, delay_setDelay_self _ _ _ h]
    rw [max_def, max_def]
    split <;> split <;> omega

/-- Witness for C9: node 2 of `lineGraphDelay` has delay 5; scrolling up gives
6 = max 0 6, scrolling down gives 4 = max 0 4, and every scroll sequence keeps
the delay non-negative. -/
theorem set_delay_spec_witness :
    (scrollUp lineGraphDelay 2).delay 2 = max 0 (lineGraphDelay.delay 2 + 1) ∧
    (scrollDown lineGraphDelay 2).delay 2 = max 0 (lineGraphDelay.delay 2 + (-1)) ∧
    ∀ ops : List (Bool × Nat), 0 ≤ (ops.foldl applyScroll lineGraphDelay).delay 2 :=
  set_delay_spec lineGraphDelay 2 (by decide) (by decide)

end Evac

namespace Evac

/-! ### Order and queue lemmas -/

lemma pairLe_iff (a b : Int × Nat) :
    pairLe a b = true ↔ (a.1 < b.1 ∨ (a.1 = b.1 ∧ a.2 ≤ b.2)) := by
  simp [pairLe, Bool.or_eq_true, Bool.and_eq_true, decide_eq_true_eq, beq_iff_eq]

lemma pairLe_refl (a : Int × Nat) : pairLe a a = true := by
  rw [pairLe_iff]; omega

lemma pairLe_total (a b : Int × Nat) : pairLe a b = true ∨ pairLe b a = true := by
  rw [pairLe_iff, pairLe_iff]; omega

lemma pairLe_trans {a b c : Int × Nat} (h1 : pairLe a b = true) (h2 : pairLe b c = true) :
    pairLe a c = true := by
  rw [pairLe_iff] at h1 h2 ⊢; omega

lemma pairLe_fst {a b : Int × Nat} (h : pairLe a b = true) : a.1 ≤ b.1 := by
  rw [pairLe_iff] at h; omega

lemma popMin_eq_none {l : List (Int × Nat)} : popMin l = none ↔ l = [] := by
  cases l with
  | nil => simp [popMin]
  | cons x xs =>
    simp only [popMin]
    constructor
    · intro h
      cases hp : popMin xs <;> rw [hp] at h
      · exact absurd h (by simp)
      · rename_i p; obtain ⟨m, rest⟩ := p
        by_cases hle : pairLe x m = true <;> simp [hle] at h
    · intro h; exact absurd h (by simp)

lemma popMin_mem {l : List (Int × Nat)} {m : Int × Nat} {rest : List (Int × Nat)}
    (h : popMin l = some (m, rest)) : m ∈ l := by
  induction l generalizing m rest with
  | nil => simp [popMin] at h
  | cons x xs ih =>
    simp only [popMin] at h
    cases hp : popMin xs <;> rw [hp] at h
    · simp only [Option.some.injEq, Prod.mk.injEq] at h
      exact h.1 ▸ List.mem_cons_self x xs
    · rename_i p; obtain ⟨m', rest'⟩ := p
      by_cases hle : pairLe x m' = true <;> simp only [hle, if_true, if_false,
          Bool.false_eq_true, Option.some.injEq, Prod.mk.injEq] at h
      · exact h.1 ▸ List.mem_cons_self x xs
      · exact List.mem_cons_of_mem x (h.1 ▸ ih hp)

lemma popMin_rest_subset {l : List (Int × Nat)} {m : Int × Nat} {rest : List (Int × Nat)}
    (h : popMin l = some (m, rest)) : ∀ x ∈ rest, x ∈ l := by
  induction l generalizing m rest with
  | nil => simp [popMin] at h
  | cons y ys ih =>
    simp only [popMin] at h
    cases hp : popMin ys <;> rw [hp] at h
    · simp only [Option.some.injEq, Prod.mk.injEq] at h
      intro x hx; rw [← h.2] at hx; simp at hx
    · rename_i p; obtain ⟨m', rest'⟩ := p
      by_cases hle : pairLe y m' = true <;> simp only [hle, if_true, if_false,
          Bool.false_eq_true, Option.some.injEq, Prod.mk.injEq] at h
      · intro x hx; rw [← h.2] at hx; exact List.mem_cons_of_mem y hx
      · intro x hx
        rw [← h.2] at hx
        rcases List.mem_cons.mp hx with rfl | hx
        · exact List.mem_cons_self x ys
        · exact List.mem_cons_of_mem y (ih hp x hx)

lemma popMin_mem_rest {l : List (Int × Nat)} {m : Int × Nat} {rest : List (Int × Nat)}
    (h : popMin l = some (m, rest)) : ∀ x ∈ l, x ≠ m → x ∈ rest := by
  induction l generalizing m rest with
  | nil => simp [popMin] at h
  | cons y ys ih =>
    simp only [popMin] at h
    cases hp : popMin ys <;> rw [hp] at h
    · simp only [Option.some.injEq, Prod.mk.injEq] at h
      have hys : ys = [] := popMin_eq_none.mp hp
      intro x hx hxm
      rcases List.mem_cons.mp hx with rfl | hx
      · exact absurd h.1 hxm
      · rw [hys] at hx; simp at hx
    · rename_i p; obtain ⟨m', rest'⟩ := p
      by_cases hle : pairLe y m' = true <;> simp only [hle, if_true, if_false,
          Bool.false_eq_true, Option.some.injEq, Prod.mk.injEq] at h
      · intro x hx hxm
        rcases List.mem_cons.mp hx with rfl | hx
        · exact absurd h.1 hxm
        · rw [← h.2]; exact hx
      · intro x hx hxm
        rw [← h.2]
        rcases List.mem_cons.mp hx with rfl | hx
        · exact List.mem_cons_self x rest'
        · exact List.mem_cons_of_mem y (ih hp x hx (h.1 ▸ hxm))

lemma popMin_le {l : List (Int × Nat)} {m : Int × Nat} {rest : List (Int × Nat)}
    (h : popMin l = some (m, rest)) : ∀ x ∈ l, pairLe m x = true := by
  induction l generalizing m rest with
  | nil => simp [popMin] at h
  | cons y ys ih =>
    simp only [popMin] at h
    cases hp : popMin ys <;> rw [hp] at h
    · simp only [Option.some.injEq, Prod.mk.injEq] at h
      have hys : ys = [] := popMin_eq_none.mp hp
      intro x hx
      rw [hys] at hx
      rcases List.mem_cons.mp hx with rfl | hx
      · exact h.1 ▸ pairLe_refl x
      · simp at hx
    · rename_i p; obtain ⟨m', rest'⟩ := p
      by_cases hle : pairLe y m' = true <;> simp only [hle, if_true, if_false,
          Bool.false_eq_true, Option.some.injEq, Prod.mk.injEq] at h
      · intro x hx
        rcases List.mem_cons.mp hx with rfl | hx
        · exact h.1 ▸ pairLe_refl x
        · exact h.1 ▸ pairLe_trans hle (ih hp x hx)
      · intro x hx
        rcases List.mem_cons.mp hx with rfl | hx
        · refine h.1 ▸ ?_
          rcases pairLe_total x m' with ht | ht
          · exact absurd ht hle
          · exact ht
        · exact h.1 ▸ ih hp x hx

lemma popMin_length {l : List (Int × Nat)} {m : Int × Nat} {rest : List (Int × Nat)}
    (h : popMin l = some (m, rest)) : rest.length + 1 = l.length := by
  induction l generalizing m rest with
  | nil => simp [popMin] at h
  | cons y ys ih =>
    simp only [popMin] at h
    cases hp : popMin ys <;> rw [hp] at h
    · simp only [Option.some.injEq, Prod.mk.injEq] at h
      have hys : ys = [] := popMin_eq_none.mp hp
      rw [← h.2, hys]; rfl
    · rename_i p; obtain ⟨m', rest'⟩ := p
      by_cases hle : pairLe y m' = true <;> simp only [hle, if_true, if_false,
          Bool.false_eq_true, Option.some.injEq, Prod.mk.injEq] at h
      · rw [← h.2]; rfl
      · rw [← h.2]
        simp only [List.length_cons]
        rw [ih hp]

end Evac

namespace Evac

/-! ### Neighbors, support, walks -/

lemma adj_of_mem_neighbors {g : Graph} {u n : Nat} (h : n ∈ g.neighbors u) :
    g.adj u n = true := by
  rw [Graph.neighbors, List.mem_filterMap] at h
  obtain ⟨e, he, hout⟩ := h
  rw [Graph.adj, List.any_eq_true]
  refine ⟨e, he, ?_⟩
  by_cases h1 : e.1 = u
  · rw [if_pos (by simp [h1])] at hout
    simp only [Option.some.injEq] at hout
    simp [h1, hout]
  · rw [if_neg (by simp [h1])] at hout
    by_cases h2 : e.2.1 = u
    · rw [if_pos (by simp [h2])] at hout
      simp only [Option.some.injEq] at hout
      simp [h2, hout]
    · rw [if_neg (by simp [h2])] at hout
      exact absurd hout (by simp)

lemma mem_support_of_mem_neighbors {g : Graph} {u n : Nat} (start : Nat)
    (h : n ∈ g.neighbors u) : n ∈ g.support start := by
  rw [Graph.neighbors, List.mem_filterMap] at h
  obtain ⟨e, he, hout⟩ := h
  rw [Graph.support, List.mem_dedup]
  refine List.mem_cons_of_mem _ (List.mem_append_right _ ?_)
  rw [List.mem_flatMap]
  refine ⟨e, he, ?_⟩
  by_cases h1 : e.1 = u
  · rw [if_pos (by simp [h1])] at hout
    simp only [Option.some.injEq] at hout
    simp [hout]
  · rw [if_neg (by simp [h1])] at hout
    by_cases h2 : e.2.1 = u
    · rw [if_pos (by simp [h2])] at hout
      simp only [Option.some.injEq] at hout
      simp [hout]
    · rw [if_neg (by simp [h2])] at hout
      exact absurd hout (by simp)

lemma start_mem_support (g : Graph) (start : Nat) : start ∈ g.support start := by
  rw [Graph.support, List.mem_dedup]
  exact List.mem_cons_self _ _

lemma support_nodup (g : Graph) (start : Nat) : (g.support start).Nodup :=
  List.nodup_dedup _

lemma isWalk_append_single {g : Graph} {obst : List Nat} {blocked : List (Nat × Nat)}
    {a u v : Nat} {q : List Nat} (hw : IsWalk g obst blocked a q)
    (hl : (a :: q).getLast? = some u) (hs : allowedStep g obst blocked u v) :
    IsWalk g obst blocked a (q ++ [v]) := by
  induction hw with
  | nil b =>
    simp only [List.getLast?_singleton, Option.some.injEq] at hl
    subst hl
    exact .cons hs (.nil v)
  | cons hstep hrest ih =>
    rename_i x y r
    refine .cons hstep (ih ?_)
    rwa [List.getLast?_cons_cons] at hl

lemma getLast?_cons_append_single (a : Nat) (q : List Nat) (v : Nat) :
    (a :: (q ++ [v])).getLast? = some v := by
  rw [show a :: (q ++ [v]) = (a :: q) ++ [v] from rfl]
  rw [List.getLast?_concat]

lemma Reach.refl (g : Graph) (obst : List Nat) (blocked : List (Nat × Nat)) (s : Nat) :
    Reach g obst blocked s s :=
  ⟨[], .nil s, rfl⟩

lemma Reach.snoc {g : Graph} {obst : List Nat} {blocked : List (Nat × Nat)} {s u v : Nat}
    (h : Reach g obst blocked s u) (hs : allowedStep g obst blocked u v) :
    Reach g obst blocked s v := by
  obtain ⟨q, hw, hl⟩ := h
  exact ⟨q ++ [v], isWalk_append_single hw hl hs, getLast?_cons_append_single s q v⟩

lemma isWalk_tail_not_obst {g : Graph} {obst : List Nat} {blocked : List (Nat × Nat)}
    {a : Nat} {q : List Nat} (hw : IsWalk g obst blocked a q) :
    ∀ v ∈ q, obst.contains v = false := by
  induction hw with
  | nil b => simp
  | cons hstep hrest ih =>
    intro v hv
    rcases List.mem_cons.mp hv with rfl | hv
    · exact hstep.2.1
    · exact ih v hv

lemma isWalk_chain {g : Graph} {obst : List Nat} {blocked : List (Nat × Nat)}
    {a : Nat} {q : List Nat} (hw : IsWalk g obst blocked a q) :
    List.Chain' (fun u v => g.adj u v = true ∧ blocked.contains (u, v) = false ∧
      blocked.contains (v, u) = false) (a :: q) := by
  induction hw with
  | nil b => simp
  | cons hstep hrest ih =>
    exact List.Chain'.cons ⟨hstep.1, hstep.2.2.1, hstep.2.2.2⟩ ih

end Evac

namespace Evac

/-! ### Characterization of one relaxation step -/

lemma relaxOne_cases (g : Graph) (obst : List Nat) (blocked : List (Nat × Nat))
    (current n : Nat) (st : DState) :
    relaxOne g obst blocked current n st = st ∨
    (obst.contains n = false ∧ blocked.contains (current, n) = false ∧
     blocked.contains (n, current) = false ∧
     relaxOne g obst blocked current n st =
       { queue := ((st.costs current).getD 0 + g.weight current n + g.delay n, n) :: st.queue
         visited := fun x => if x = n then some current else st.visited x
         costs := fun x =>
           if x = n then some ((st.costs current).getD 0 + g.weight current n + g.delay n)
           else st.costs x } ∧
     (st.costs n = none ∨ ∃ cn, st.costs n = some cn ∧
        (st.costs current).getD 0 + g.weight current n + g.delay n < cn)) := by
  by_cases hg : (obst.contains n || blocked.contains (current, n) ||
      blocked.contains (n, current)) = true
  · left
    simp only [relaxOne, hg, if_pos]
  · have hsplit : obst.contains n = false ∧ blocked.contains (current, n) = false ∧
        blocked.contains (n, current) = false := by
      simp only [Bool.or_eq_true] at hg
      push_neg at hg
      exact ⟨Bool.eq_false_iff.mpr hg.1.1, Bool.eq_false_iff.mpr hg.1.2,
        Bool.eq_false_iff.mpr hg.2⟩
    cases hcn : st.costs n with
    | none =>
      right
      refine ⟨hsplit.1, hsplit.2.1, hsplit.2.2, ?_, .inl rfl⟩
      unfold relaxOne
      rw [if_neg hg, hcn]
    | some cn =>
      by_cases hlt : (st.costs current).getD 0 + g.weight current n + g.delay n < cn
      · right
        refine ⟨hsplit.1, hsplit.2.1, hsplit.2.2, ?_, .inr ⟨cn, rfl, hlt⟩⟩
        unfold relaxOne
        rw [if_neg hg, hcn]
        simp only []
        rw [if_pos hlt]
      · left
        unfold relaxOne
        rw [if_neg hg, hcn]
        simp only []
        rw [if_neg hlt]

lemma relaxOne_costs_ne_none {g : Graph} {obst : List Nat} {blocked : List (Nat × Nat)}
    {current n : Nat} {st : DState} {v : Nat} (h : st.costs v ≠ none) :
    (relaxOne g obst blocked current n st).costs v ≠ none := by
  rcases relaxOne_cases g obst blocked current n st with heq | ⟨-, -, -, heq, -⟩ <;> rw [heq]
  · exact h
  · by_cases hvn : v = n <;> simp [hvn, h]

/-! ### The safety invariant: everything recorded is a real allowed step -/

structure SafeInv (g : Graph) (obst : List Nat) (blocked : List (Nat × Nat)) (start : Nat)
    (st : DState) : Prop where
  queueCosts : ∀ c v, (c, v) ∈ st.queue → ∃ cv, st.costs v = some cv ∧ cv ≤ c
  visitedStep : ∀ v u, st.visited v = some u → allowedStep g obst blocked u v
  visitedCosts : ∀ v u, st.visited v = some u →
    ∃ cu cv, st.costs u = some cu ∧ st.costs v = some cv ∧
      cu + g.weight u v + g.delay v ≤ cv
  visitedTotal : ∀ v, v ≠ start → st.costs v ≠ none → st.visited v ≠ none
  reach : ∀ v, st.costs v ≠ none → Reach g obst blocked start v
  domain : ∀ v, st.costs v ≠ none → v ∈ g.support start

lemma relaxOne_safe {g : Graph} {obst : List Nat} {blocked : List (Nat × Nat)}
    {start : Nat} {st : DState} {current n : Nat}
    (hS : SafeInv g obst blocked start st)
    (hcur : st.costs current ≠ none)
    (hadj : g.adj current n = true)
    (hdom : n ∈ g.support start) :
    SafeInv g obst blocked start (relaxOne g obst blocked current n st) := by
  rcases relaxOne_cases g obst blocked current n st with heq | ⟨ho, hb1, hb2, heq, hold⟩
  · rw [heq]; exact hS
  · rw [heq]
    obtain ⟨ccur, hccur⟩ := Option.ne_none_iff_exists'.mp hcur
    have hstep : allowedStep g obst blocked current n := ⟨hadj, ho, hb1, hb2⟩
    have hgetD : (st.costs current).getD 0 = ccur := by rw [hccur]; rfl
    have hCccur : (st.costs current).getD 0 + g.weight current n + g.delay n =
        ccur + g.weight current n + g.delay n := by rw [hgetD]
    refine ⟨?_, ?_, ?_, ?_, ?_, ?_⟩
    · intro c' v hv
      simp only [List.mem_cons] at hv
      rcases hv with hv | hv
      · have h1 : c' = (st.costs current).getD 0 + g.weight current n + g.delay n ∧ v = n :=
          ⟨congrArg Prod.fst hv, congrArg Prod.snd hv⟩
        rcases h1 with ⟨rfl, h1⟩
        refine ⟨(st.costs current).getD 0 + g.weight current n + g.delay n, ?_, le_refl _⟩
        simp only [h1, if_pos]
      · obtain ⟨cv, h1, h2⟩ := hS.queueCosts c' v hv
        by_cases hvn : v = n
        · refine ⟨(st.costs current).getD 0 + g.weight current n + g.delay n, ?_, ?_⟩
          · simp only [hvn, if_pos]
          · rcases hold with hnone | ⟨cn, hcn, hlt⟩
            · rw [hvn, hnone] at h1; exact absurd h1 (by simp)
            · rw [hvn, hcn] at h1
              simp only [Option.some.injEq] at h1
              omega
        · exact ⟨cv, by simp only [if_neg hvn]; exact h1, h2⟩
    · intro v u hv
      simp only at hv
      by_cases hvn : v = n
      · rw [if_pos hvn] at hv
        simp only [Option.some.injEq] at hv
        rw [← hv, hvn]
        exact hstep
      · rw [if_neg hvn] at hv
        exact hS.visitedStep v u hv
    · intro v u hv
      simp only at hv
      by_cases hvn : v = n
      · rw [if_pos hvn] at hv
        simp only [Option.some.injEq] at hv
        by_cases hun : u = n
        · -- a relaxation along a self-loop: only possible with a strict decrease,
          -- so the weight-plus-delay of the loop is negative
          have hcn2 : current = n := hv.trans hun
          refine ⟨(st.costs current).getD 0 + g.weight current n + g.delay n,
            (st.costs current).getD 0 + g.weight current n + g.delay n,
            by simp only [hun, if_pos], by simp only [hvn, if_pos], ?_⟩
          rcases hold with hnone | ⟨cn, hcn, hlt⟩
          · rw [hcn2, hnone] at hccur
            exact absurd hccur (by simp)
          · have hcc : ccur = cn := by
              rw [hcn2, hcn] at hccur
              simp only [Option.some.injEq] at hccur
              omega
            have hW1 : g.weight u v = g.weight current n := by rw [hun, hvn, hcn2]
            have hW2 : g.delay v = g.delay n := by rw [hvn]
            omega
        · refine ⟨ccur, (st.costs current).getD 0 + g.weight current n + g.delay n,
            ?_, by simp only [hvn, if_pos], ?_⟩
          · simp only [if_neg hun]
            rw [← hv]
            exact hccur
          · have hW1 : g.weight u v = g.weight current n := by rw [← hv, hvn]
            have hW2 : g.delay v = g.delay n := by rw [hvn]
            omega
      · rw [if_neg hvn] at hv
        obtain ⟨cu, cv, h1, h2, h3⟩ := hS.visitedCosts v u hv
        by_cases hun : u = n
        · rcases hold with hnone | ⟨cn, hcn, hlt⟩
          · rw [hun, hnone] at h1; exact absurd h1 (by simp)
          · rw [hun, hcn] at h1
            simp only [Option.some.injEq] at h1
            refine ⟨(st.costs current).getD 0 + g.weight current n + g.delay n, cv,
              by simp only [hun, if_pos], by simp only [if_neg hvn]; exact h2, ?_⟩
            omega
        · exact ⟨cu, cv, by simp only [if_neg hun]; exact h1,
            by simp only [if_neg hvn]; exact h2, h3⟩
    · intro v hvs hvc
      by_cases hvn : v = n
      · simp only [hvn, if_pos]
        simp
      · simp only [if_neg hvn] at hvc ⊢
        exact hS.visitedTotal v hvs hvc
    · intro v hvc
      by_cases hvn : v = n
      · rw [hvn]
        exact (hS.reach current hcur).snoc hstep
      · simp only [if_neg hvn] at hvc
        exact hS.reach v hvc
    · intro v hvc
      by_cases hvn : v = n
      · rw [hvn]; exact hdom
      · simp only [if_neg hvn] at hvc
        exact hS.domain v hvc

lemma relaxAll_safe {g : Graph} {obst : List Nat} {blocked : List (Nat × Nat)}
    {start : Nat} {current : Nat} :
    ∀ (ns : List Nat) (st : DState),
      SafeInv g obst blocked start st →
      st.costs current ≠ none →
      (∀ n ∈ ns, g.adj current n = true ∧ n ∈ g.support start) →
      SafeInv g obst blocked start (relaxAll g obst blocked current ns st) := by
  intro ns
  induction ns with
  | nil => intro st hS _ _; exact hS
  | cons n rest ih =>
    intro st hS hcur hns
    rw [relaxAll]
    refine ih _ (relaxOne_safe hS hcur (hns n (by simp)).1 (hns n (by simp)).2)
      (relaxOne_costs_ne_none hcur) ?_
    intro m hm
    exact hns m (List.mem_cons_of_mem n hm)

lemma dstep_safe_stop {g : Graph} {obst : List Nat} {blocked : List (Nat × Nat)}
    {start endN : Nat} {st T : DState} (hS : SafeInv g obst blocked start st)
    (h : dstep g obst blocked endN st = .stop T) :
    SafeInv g obst blocked start T := by
  rw [dstep] at h
  cases hpop : popMin st.queue with
  | none =>
    rw [hpop] at h
    simp only [StepRes.stop.injEq] at h
    exact h ▸ hS
  | some p =>
    obtain ⟨⟨c, current⟩, rest⟩ := p
    rw [hpop] at h
    dsimp only at h
    by_cases hce : current = endN
    · rw [if_pos hce] at h
      simp only [StepRes.stop.injEq] at h
      subst h
      exact ⟨fun c' v hv => hS.queueCosts c' v (popMin_rest_subset hpop _ hv),
        hS.visitedStep, hS.visitedCosts, hS.visitedTotal, hS.reach, hS.domain⟩
    · rw [if_neg hce] at h
      exact absurd h (by simp)

lemma dstep_safe_next {g : Graph} {obst : List Nat} {blocked : List (Nat × Nat)}
    {start endN : Nat} {st T : DState} (hS : SafeInv g obst blocked start st)
    (h : dstep g obst blocked endN st = .next T) :
    SafeInv g obst blocked start T := by
  rw [dstep] at h
  cases hpop : popMin st.queue with
  | none =>
    rw [hpop] at h
    exact absurd h (by simp)
  | some p =>
    obtain ⟨⟨c, current⟩, rest⟩ := p
    rw [hpop] at h
    dsimp only at h
    by_cases hce : current = endN
    · rw [if_pos hce] at h
      exact absurd h (by simp)
    · rw [if_neg hce] at h
      simp only [StepRes.next.injEq] at h
      subst h
      have hmem : (c, current) ∈ st.queue := popMin_mem hpop
      obtain ⟨ccur, hccur, -⟩ := hS.queueCosts c current hmem
      have hS' : SafeInv g obst blocked start { st with queue := rest } :=
        ⟨fun c' v hv => hS.queueCosts c' v (popMin_rest_subset hpop _ hv),
          hS.visitedStep, hS.visitedCosts, hS.visitedTotal, hS.reach, hS.domain⟩
      refine relaxAll_safe _ _ hS' (by simp [hccur]) ?_
      intro m hm
      exact ⟨adj_of_mem_neighbors hm, mem_support_of_mem_neighbors start hm⟩

lemma dloop_safe {g : Graph} {obst : List Nat} {blocked : List (Nat × Nat)}
    {start endN : Nat} :
    ∀ (f : Nat) (st T : DState), SafeInv g obst blocked start st →
      dloop g obst blocked endN f st = some T → SafeInv g obst blocked start T := by
  intro f
  induction f with
  | zero =>
    intro st T hS hdl
    rw [dloop] at hdl
    cases hd : dstep g obst blocked endN st <;> rw [hd] at hdl
    · simp only [Option.some.injEq] at hdl
      exact hdl ▸ dstep_safe_stop hS hd
    · exact absurd hdl (by simp)
  | succ f ih =>
    intro st T hS hdl
    rw [dloop] at hdl
    cases hd : dstep g obst blocked endN st <;> rw [hd] at hdl
    · simp only [Option.some.injEq] at hdl
      exact hdl ▸ dstep_safe_stop hS hd
    · exact ih _ T (dstep_safe_next hS hd) hdl

/-- The initial state built by `find_path`. -/
def initState (start : Nat) : DState :=
  { queue := [(0, start)], visited := fun _ => none
    costs := fun k => if k = start then some 0 else none }

lemma find_path_eq (g : Graph) (obst : List Nat) (blocked : List (Nat × Nat))
    (start endN : Nat) :
    find_path g obst blocked start endN =
      match dloop g obst blocked endN (fuelBound g start) (initState start) with
      | none => ([], 0)
      | some s =>
        match buildPath s.visited start (pathFuel g start) endN [] with
        | none => ([], 0)
        | some p => (p, (s.costs endN).getD 0) := rfl

lemma safeInv_init (g : Graph) (obst : List Nat) (blocked : List (Nat × Nat)) (start : Nat) :
    SafeInv g obst blocked start (initState start) := by
  refine ⟨?_, ?_, ?_, ?_, ?_, ?_⟩
  · intro c v hv
    simp only [initState, List.mem_singleton] at hv
    have h1 : c = 0 ∧ v = start := ⟨congrArg Prod.fst hv, congrArg Prod.snd hv⟩
    obtain ⟨rfl, rfl⟩ := h1
    exact ⟨0, by simp [initState], le_refl 0⟩
  · intro v u hv; exact absurd hv (by simp [initState])
  · intro v u hv; exact absurd hv (by simp [initState])
  · intro v hvs hvc
    simp only [initState, if_neg hvs] at hvc
    exact absurd rfl hvc
  · intro v hvc
    by_cases hvs : v = start
    · exact hvs ▸ Reach.refl g obst blocked start
    · simp only [initState, if_neg hvs] at hvc
      exact absurd rfl hvc
  · intro v hvc
    by_cases hvs : v = start
    · exact hvs ▸ start_mem_support g start
    · simp only [initState, if_neg hvs] at hvc
      exact absurd rfl hvc

/-! ### Soundness of path reconstruction -/

lemma buildPath_sound {g : Graph} {obst : List Nat} {blocked : List (Nat × Nat)}
    {start : Nat} {visited : Nat → Option Nat}
    (hV : ∀ v u, visited v = some u → allowedStep g obst blocked u v) :
    ∀ (fuel node : Nat) (acc q : List Nat),
      buildPath visited start fuel node acc = some q →
      IsWalk g obst blocked node acc →
      ∃ rest, q = start :: rest ∧ IsWalk g obst blocked start rest ∧
        (start :: rest).getLast? = (node :: acc).getLast? := by
  intro fuel
  induction fuel with
  | zero => intro node acc q h _; exact absurd h (by simp [buildPath])
  | succ f ih =>
    intro node acc q h hw
    rw [buildPath] at h
    by_cases hns : node = start
    · rw [if_pos hns] at h
      simp only [Option.some.injEq] at h
      subst hns
      exact ⟨acc, h.symm, hw, rfl⟩
    · rw [if_neg hns] at h
      cases hv : visited node <;> rw [hv] at h
      · exact absurd h (by simp)
      · rename_i prev
        have hstep := hV node prev hv
        have hw' : IsWalk g obst blocked prev (node :: acc) := .cons hstep hw
        obtain ⟨rest, hq, hwr, hl⟩ := ih prev (node :: acc) q h hw'
        refine ⟨rest, hq, hwr, ?_⟩
        rw [hl, List.getLast?_cons_cons]

end Evac

namespace Evac

/-! ### C4, C5, C10: safety consequences -/

lemma visited_none_result {g : Graph} {obst : List Nat} {blocked : List (Nat × Nat)}
    {s e : Nat} {T : DState}
    (hdl : dloop g obst blocked e (fuelBound g s) (initState s) = some T)
    (hne : e ≠ s) (hv : T.visited e = none) :
    find_path g obst blocked s e = ([], 0) := by
  rw [find_path_eq, hdl]
  have hpf : pathFuel g s = potNone g s + 1 := rfl
  rw [hpf]
  simp [buildPath, hne, hv]

/-- C4: when `end` differs from `start` and is unreachable through allowed
steps under the current obstacle and blocked-edge sets, `find_path` returns
the empty path with cost 0 as an ordinary result. -/
theorem find_path_no_route (g : Graph) (obst : List Nat) (blocked : List (Nat × Nat))
    (s e : Nat) (hne : s ≠ e) (hreach : ¬ Reach g obst blocked s e) :
    find_path g obst blocked s e = ([], 0) := by
  cases hdl : dloop g obst blocked e (fuelBound g s) (initState s) with
  | none => rw [find_path_eq, hdl]
  | some T =>
    have hT := dloop_safe _ _ _ (safeInv_init g obst blocked s) hdl
    have hv : T.visited e = none := by
      cases hv : T.visited e with
      | none => rfl
      | some u =>
        obtain ⟨cu, cv, h1, h2, h3⟩ := hT.visitedCosts e u hv
        exact absurd (hT.reach e (by rw [h2]; simp)) hreach
    exact visited_none_result hdl (Ne.symm hne) hv

/-- Witness for C4: on the two-node edgeless graph, node 1 is unreachable
from node 0 and `find_path` returns `([], 0)`. -/
theorem find_path_no_route_witness :
    find_path ⟨[(0, 0), (1, 0)], []⟩ [] [] 0 1 = ([], 0) := by
  refine find_path_no_route _ [] [] 0 1 (by decide) ?_
  rintro ⟨q, hw, hl⟩
  cases hw with
  | nil =>
    simp at hl
  | cons hstep hrest =>
    have : (⟨[(0, 0), (1, 0)], []⟩ : Graph).adj 0 _ = true := hstep.1
    simp [Graph.adj] at this

/-- C5: if `end` is in the obstacle set and differs from `start`, `find_path`
returns `([], 0)`; if `end = start`, the obstacle status does not prevent the
single-node result `([start], 0)`. -/
theorem find_path_end_obstacle (g : Graph) (obst : List Nat) (blocked : List (Nat × Nat))
    (s e : Nat) (hobs : obst.contains e = true) :
    (e ≠ s → find_path g obst blocked s e = ([], 0)) ∧
    (e = s → find_path g obst blocked s e = ([s], 0)) := by
  constructor
  · intro hne
    cases hdl : dloop g obst blocked e (fuelBound g s) (initState s) with
    | none => rw [find_path_eq, hdl]
    | some T =>
      have hT := dloop_safe _ _ _ (safeInv_init g obst blocked s) hdl
      have hv : T.visited e = none := by
        cases hv : T.visited e with
        | none => rfl
        | some u =>
          have hstep := hT.visitedStep e u hv
          rw [hstep.2.1] at hobs
          exact absurd hobs (by simp)
      exact visited_none_result hdl hne hv
  · intro he
    rw [he]
    exact find_path_refl g obst blocked s

/-- Witness for C5: node 2 of the line graph is an obstacle; the route from 0
to 2 is refused, while the route from 2 to 2 still returns `([2], 0)`. -/
theorem find_path_end_obstacle_witness :
    ((2 : Nat) ≠ 0 → find_path lineGraph [2] [] 0 2 = ([], 0)) ∧
    ((2 : Nat) = 0 → find_path lineGraph [2] [] 0 2 = ([0], 0)) :=
  find_path_end_obstacle lineGraph [2] [] 0 2 (by decide)

/-- C10: a non-empty result of `find_path` starts at `start`, ends at `end`,
follows graph edges none of which is blocked in either orientation, and
visits no obstacle node after the start node. -/
theorem find_path_result_valid (g : Graph) (obst : List Nat) (blocked : List (Nat × Nat))
    (s e : Nat) (p : List Nat) (c : Int)
    (hres : find_path g obst blocked s e = (p, c)) (hne : p ≠ []) :
    p.head? = some s ∧ p.getLast? = some e ∧
    List.Chain' (fun u v => g.adj u v = true ∧ blocked.contains (u, v) = false ∧
      blocked.contains (v, u) = false) p ∧
    ∀ v ∈ p.tail, obst.contains v = false := by
  rw [find_path_eq] at hres
  cases hdl : dloop g obst blocked e (fuelBound g s) (initState s) with
  | none =>
    rw [hdl] at hres
    exact absurd (congrArg Prod.fst hres).symm hne
  | some T =>
    rw [hdl] at hres
    dsimp only at hres
    cases hbp : buildPath T.visited s (pathFuel g s) e [] with
    | none =>
      rw [hbp] at hres
      exact absurd (congrArg Prod.fst hres).symm hne
    | some q =>
      rw [hbp] at hres
      have hqp : q = p := congrArg Prod.fst hres
      have hT := dloop_safe _ _ _ (safeInv_init g obst blocked s) hdl
      obtain ⟨rest, hq, hwr, hl⟩ :=
        buildPath_sound hT.visitedStep (pathFuel g s) e [] q hbp (.nil e)
      subst hqp
      subst hq
      refine ⟨rfl, ?_, isWalk_chain hwr, isWalk_tail_not_obst hwr⟩
      rw [hl]
      rfl

/-- Witness for C10 at a concrete input: the route `[0,1,2,3]` on the line
graph satisfies all four conclusions. -/
theorem find_path_result_valid_witness :
    ([0, 1, 2, 3] : List Nat).head? = some 0 ∧
    ([0, 1, 2, 3] : List Nat).getLast? = some 3 ∧
    List.Chain' (fun u v => lineGraph.adj u v = true ∧
      ([] : List (Nat × Nat)).contains (u, v) = false ∧
      ([] : List (Nat × Nat)).contains (v, u) = false) [0, 1, 2, 3] ∧
    ∀ v ∈ ([0, 1, 2, 3] : List Nat).tail, ([] : List Nat).contains v = false :=
  find_path_result_valid lineGraph [] [] 0 3 [0, 1, 2, 3] 3 (by decide) (by decide)

end Evac

namespace Evac

/-! ### Positivity facts under the data-model invariants -/

/-- The spec's data-model invariant: strictly positive weights. -/
def PosWeights (g : Graph) : Prop := ∀ e ∈ g.edges, (0 : Int) < e.2.2

/-- The spec's data-model invariant: non-negative delays. -/
def NonnegDelays (g : Graph) : Prop := ∀ p ∈ g.nodes, (0 : Int) ≤ p.2

lemma weight_pos_of_adj {g : Graph} (Hw : PosWeights g) {u v : Nat}
    (h : g.adj u v = true) : 1 ≤ g.weight u v := by
  rw [Graph.adj, List.any_eq_true] at h
  obtain ⟨e, he, hpe⟩ := h
  have hfind : (g.edges.find? (fun e => (e.1 == u && e.2.1 == v) ||
      (e.1 == v && e.2.1 == u))).isSome := by
    rw [List.find?_isSome]
    exact ⟨e, he, hpe⟩
  obtain ⟨e', he'⟩ := Option.isSome_iff_exists.mp hfind
  have hmem := List.mem_of_find?_eq_some he'
  have h1 := Hw e' hmem
  have h2 : g.weight u v = e'.2.2 := by rw [Graph.weight, he']
  omega

lemma delay_nonneg {g : Graph} (Hd : NonnegDelays g) (v : Nat) : 0 ≤ g.delay v := by
  rw [Graph.delay]
  cases hf : g.nodes.find? (fun p => p.1 == v) with
  | none => exact le_refl 0
  | some p => exact Hd p (List.mem_of_find?_eq_some hf)

lemma step_pos {g : Graph} (Hw : PosWeights g) (Hd : NonnegDelays g) {u v : Nat}
    (h : g.adj u v = true) : 1 ≤ g.weight u v + g.delay v := by
  have h1 := weight_pos_of_adj Hw h
  have h2 := delay_nonneg Hd v
  omega

lemma maxStep_nonneg (g : Graph) : 0 ≤ g.maxStep := by
  rw [Graph.maxStep]
  have h1 : (0 : Int) ≤ (g.edges.map (fun e => max 0 e.2.2)).sum :=
    List.sum_nonneg (by intro x hx; obtain ⟨e, -, rfl⟩ := List.mem_map.mp hx; exact le_max_left 0 _)
  have h2 : (0 : Int) ≤ (g.nodes.map (fun p => max 0 p.2)).sum :=
    List.sum_nonneg (by intro x hx; obtain ⟨p, -, rfl⟩ := List.mem_map.mp hx; exact le_max_left 0 _)
  omega

lemma step_le_maxStep {g : Graph} {u v : Nat} (h : g.adj u v = true) :
    g.weight u v + g.delay v ≤ g.maxStep := by
  rw [Graph.adj, List.any_eq_true] at h
  obtain ⟨e, he, hpe⟩ := h
  have hw : g.weight u v ≤ (g.edges.map (fun e => max 0 e.2.2)).sum := by
    have hfind : (g.edges.find? (fun e => (e.1 == u && e.2.1 == v) ||
        (e.1 == v && e.2.1 == u))).isSome := by
      rw [List.find?_isSome]
      exact ⟨e, he, hpe⟩
    obtain ⟨e', he'⟩ := Option.isSome_iff_exists.mp hfind
    have hmem : (max 0 e'.2.2) ∈ g.edges.map (fun e => max 0 e.2.2) :=
      List.mem_map.mpr ⟨e', List.mem_of_find?_eq_some he', rfl⟩
    have h1 : max 0 e'.2.2 ≤ (g.edges.map (fun e => max 0 e.2.2)).sum :=
      List.single_le_sum (by
        intro y hy; obtain ⟨e'', -, rfl⟩ := List.mem_map.mp hy; exact le_max_left 0 _) _ hmem
    rw [Graph.weight, he']
    exact le_trans (le_max_right 0 _) h1
  have hd : g.delay v ≤ (g.nodes.map (fun p => max 0 p.2)).sum := by
    have hnn : (0 : Int) ≤ (g.nodes.map (fun p => max 0 p.2)).sum :=
      List.sum_nonneg (by
        intro x hx; obtain ⟨p, -, rfl⟩ := List.mem_map.mp hx; exact le_max_left 0 _)
    rw [Graph.delay]
    cases hf : g.nodes.find? (fun p => p.1 == v) with
    | none => exact hnn
    | some p =>
      have hmem : (max 0 p.2) ∈ g.nodes.map (fun p => max 0 p.2) :=
        List.mem_map.mpr ⟨p, List.mem_of_find?_eq_some hf, rfl⟩
      have h1 : max 0 p.2 ≤ (g.nodes.map (fun p => max 0 p.2)).sum :=
        List.single_le_sum (by
          intro y hy; obtain ⟨p'', -, rfl⟩ := List.mem_map.mp hy; exact le_max_left 0 _) _ hmem
      exact le_trans (le_max_right 0 _) h1
  rw [Graph.maxStep]
  omega

lemma walkCost_nonneg {g : Graph} {obst : List Nat} {blocked : List (Nat × Nat)}
    (Hw : PosWeights g) (Hd : NonnegDelays g) {a : Nat} {q : List Nat}
    (hw : IsWalk g obst blocked a q) : 0 ≤ walkCost g a q := by
  induction hw with
  | nil b => simp [walkCost]
  | cons hstep hrest ih =>
    rename_i x y r
    have := step_pos Hw Hd hstep.1
    rw [walkCost]
    omega

lemma walkCost_append_single {g : Graph} (v : Nat) :
    ∀ (q : List Nat) (a u : Nat), (a :: q).getLast? = some u →
      walkCost g a (q ++ [v]) = walkCost g a q + (g.weight u v + g.delay v) := by
  intro q
  induction q with
  | nil =>
    intro a u hl
    simp only [List.getLast?_singleton, Option.some.injEq] at hl
    subst hl
    simp [walkCost]
  | cons b r ih =>
    intro a u hl
    rw [List.getLast?_cons_cons] at hl
    have hstep : (b :: r) ++ [v] = b :: (r ++ [v]) := rfl
    rw [hstep, walkCost, walkCost, ih b u hl]
    ring

/-! ### List helper lemmas for the loop variant -/

lemma sum_map_le_length_mul {l : List Nat} {f : Nat → Nat} {n : Nat}
    (h : ∀ x ∈ l, f x ≤ n) : (l.map f).sum ≤ l.length * n := by
  induction l with
  | nil => simp
  | cons a t ih =>
    simp only [List.map_cons, List.sum_cons, List.length_cons]
    have h1 := h a (by simp)
    have h2 := ih (fun x hx => h x (List.mem_cons_of_mem a hx))
    calc f a + (t.map f).sum ≤ n + t.length * n := Nat.add_le_add h1 h2
    _ = (t.length + 1) * n := by ring

lemma sum_map_update {l : List Nat} {f f' : Nat → Nat} {n : Nat}
    (hl : l.Nodup) (hn : n ∈ l) (hoth : ∀ v ∈ l, v ≠ n → f' v = f v) :
    (l.map f').sum + f n = (l.map f).sum + f' n := by
  induction l with
  | nil => simp at hn
  | cons a t ih =>
    have hha : a ∉ t := (List.nodup_cons.mp hl).1
    rcases List.mem_cons.mp hn with heq | hn'
    · have hta : ∀ v ∈ t, f' v = f v := by
        intro v hv
        refine hoth v (List.mem_cons_of_mem a hv) ?_
        intro h
        rw [h, heq] at hv
        exact hha hv
      have ht : (t.map f').sum = (t.map f).sum := by
        rw [List.map_congr_left hta]
      have hfa : f n = f a := by rw [heq]
      have hfa' : f' n = f' a := by rw [heq]
      simp only [List.map_cons, List.sum_cons]
      omega
    · have ha : f' a = f a := by
        refine hoth a (by simp) ?_
        intro h
        rw [← h] at hn'
        exact hha hn'
      have hrec := ih (List.nodup_cons.mp hl).2 hn'
        (fun v hv hvn => hoth v (List.mem_cons_of_mem a hv) hvn)
      simp only [List.map_cons, List.sum_cons]
      omega

lemma filter_length_le_of_imp {l : List Nat} {p p' : Nat → Bool}
    (h : ∀ v ∈ l, p v = true → p' v = true) :
    (l.filter p).length ≤ (l.filter p').length := by
  induction l with
  | nil => simp
  | cons a t ih =>
    have iht := ih (fun v hv => h v (List.mem_cons_of_mem a hv))
    by_cases hp : p a = true
    · rw [List.filter_cons_of_pos hp, List.filter_cons_of_pos (h a (by simp) hp)]
      simpa using iht
    · rw [List.filter_cons_of_neg (by simpa using hp)]
      by_cases hp' : p' a = true
      · rw [List.filter_cons_of_pos hp']
        exact le_trans iht (by simp)
      · rw [List.filter_cons_of_neg (by simpa using hp')]
        exact iht

lemma filter_length_update {l : List Nat} {p p' : Nat → Bool} {n : Nat}
    (hl : l.Nodup) (hn : n ∈ l) (hpn : p n = false) (hpn' : p' n = true)
    (hoth : ∀ v ∈ l, v ≠ n → p' v = p v) :
    (l.filter p').length = (l.filter p).length + 1 := by
  induction l with
  | nil => simp at hn
  | cons a t ih =>
    have hha : a ∉ t := (List.nodup_cons.mp hl).1
    rcases List.mem_cons.mp hn with heq | hn'
    · have hta : ∀ v ∈ t, p' v = p v := by
        intro v hv
        refine hoth v (List.mem_cons_of_mem a hv) ?_
        intro h
        rw [h, heq] at hv
        exact hha hv
      have ht : t.filter p' = t.filter p := List.filter_congr hta
      have hpa : p a = false := by rw [← heq]; exact hpn
      have hpa' : p' a = true := by rw [← heq]; exact hpn'
      rw [List.filter_cons_of_pos hpa', List.filter_cons_of_neg (by simp [hpa]), ht]
      rfl
    · have ha : p' a = p a := by
        refine hoth a (by simp) ?_
        intro h
        rw [← h] at hn'
        exact hha hn'
      have iht := ih (List.nodup_cons.mp hl).2 hn'
        (fun v hv hvn => hoth v (List.mem_cons_of_mem a hv) hvn)
      by_cases hp : p a = true
      · rw [List.filter_cons_of_pos hp, List.filter_cons_of_pos (ha.trans hp)]
        simp only [List.length_cons]
        omega
      · have hpf : p a = false := by simpa using hp
        rw [List.filter_cons_of_neg (by simp [ha.trans hpf]),
          List.filter_cons_of_neg (by simp [hpf])]
        exact iht

end Evac

namespace Evac

/-! ### The cost invariant -/

/-- Number of support nodes with an assigned tentative cost. -/
def assignedCount (g : Graph) (start : Nat) (st : DState) : Nat :=
  ((g.support start).filter (fun v => (st.costs v).isSome)).length

/-- All assigned costs are non-negative. -/
def CostNonneg (st : DState) : Prop := ∀ v cv, st.costs v = some cv → 0 ≤ cv

/-- Every assigned node either still has its own entry pending in the queue,
or all its outgoing allowed edges are relaxed with respect to its cost. -/
def Relaxed (g : Graph) (obst : List Nat) (blocked : List (Nat × Nat)) (st : DState) : Prop :=
  ∀ v cv, st.costs v = some cv →
    ((cv, v) ∈ st.queue ∨
     ∀ w, allowedStep g obst blocked v w →
       ∃ cw, st.costs w = some cw ∧ cw ≤ cv + g.weight v w + g.delay w)

/-- All assigned costs are bounded by the number of assigned nodes times the
largest possible relaxation step. -/
def Bounded (g : Graph) (start : Nat) (st : DState) : Prop :=
  ∀ v cv, st.costs v = some cv → cv ≤ (assignedCount g start st : Int) * g.maxStep

structure CostInv (g : Graph) (obst : List Nat) (blocked : List (Nat × Nat)) (start : Nat)
    (st : DState) : Prop where
  nonneg : CostNonneg st
  start0 : st.costs start = some 0
  relaxed : Relaxed g obst blocked st
  bound : Bounded g start st

lemma relaxOne_queue_superset {g : Graph} {obst : List Nat} {blocked : List (Nat × Nat)}
    {current n : Nat} {st : DState} {x : Int × Nat} (h : x ∈ st.queue) :
    x ∈ (relaxOne g obst blocked current n st).queue := by
  rcases relaxOne_cases g obst blocked current n st with heq | ⟨-, -, -, heq, -⟩ <;> rw [heq]
  · exact h
  · exact List.mem_cons_of_mem _ h

lemma relaxOne_nonneg {g : Graph} {obst : List Nat} {blocked : List (Nat × Nat)}
    {current n : Nat} {st : DState}
    (Hw : PosWeights g) (Hd : NonnegDelays g)
    (hadj : g.adj current n = true) (hnn : CostNonneg st) :
    CostNonneg (relaxOne g obst blocked current n st) := by
  rcases relaxOne_cases g obst blocked current n st with heq | ⟨-, -, -, heq, -⟩ <;> rw [heq]
  · exact hnn
  · intro v cv hv
    simp only at hv
    by_cases hvn : v = n
    · rw [if_pos hvn] at hv
      simp only [Option.some.injEq] at hv
      have hstep := step_pos Hw Hd hadj
      rcases hgd : st.costs current with - | ccur
      · rw [hgd] at hv
        simp only [Option.getD_none] at hv
        omega
      · have := hnn current ccur hgd
        rw [hgd] at hv
        simp only [Option.getD_some] at hv
        omega
    · rw [if_neg hvn] at hv
      exact hnn v cv hv

lemma relaxOne_newcost_pos {g : Graph} {st : DState} {current n : Nat}
    (Hw : PosWeights g) (Hd : NonnegDelays g)
    (hadj : g.adj current n = true) (hnn : CostNonneg st) :
    0 < (st.costs current).getD 0 + g.weight current n + g.delay n := by
  have hstep := step_pos Hw Hd hadj
  rcases hgd : st.costs current with - | ccur
  · simp only [Option.getD_none]
    omega
  · have := hnn current ccur hgd
    simp only [Option.getD_some]
    omega

lemma relaxOne_start0 {g : Graph} {obst : List Nat} {blocked : List (Nat × Nat)}
    {current n : Nat} {st : DState} {start : Nat}
    (Hw : PosWeights g) (Hd : NonnegDelays g)
    (hadj : g.adj current n = true) (hnn : CostNonneg st)
    (h0 : st.costs start = some 0) :
    (relaxOne g obst blocked current n st).costs start = some 0 := by
  rcases relaxOne_cases g obst blocked current n st with heq | ⟨-, -, -, heq, hold⟩ <;> rw [heq]
  · exact h0
  · by_cases hns : start = n
    · rcases hold with hnone | ⟨cn, hcn, hlt⟩
      · rw [← hns, h0] at hnone
        exact absurd hnone (by simp)
      · rw [← hns, h0] at hcn
        simp only [Option.some.injEq] at hcn
        have := @relaxOne_newcost_pos g st current n Hw Hd hadj hnn
        omega
    · simp only
      rw [if_neg hns]
      exact h0

lemma relaxOne_relaxed {g : Graph} {obst : List Nat} {blocked : List (Nat × Nat)}
    {current n : Nat} {st : DState}
    (h : Relaxed g obst blocked st) :
    Relaxed g obst blocked (relaxOne g obst blocked current n st) := by
  rcases relaxOne_cases g obst blocked current n st with heq | ⟨-, -, -, heq, hold⟩ <;> rw [heq]
  · exact h
  · intro v cv hv
    simp only at hv
    by_cases hvn : v = n
    · left
      simp only [hvn, if_pos] at hv
      simp only [Option.some.injEq] at hv
      rw [hvn, ← hv]
      exact List.mem_cons_self _ _
    · rw [if_neg hvn] at hv
      rcases h v cv hv with hq | hr
      · exact .inl (List.mem_cons_of_mem _ hq)
      · right
        intro w hw
        obtain ⟨cw, hcw, hle⟩ := hr w hw
        by_cases hwn : w = n
        · rcases hold with hnone | ⟨cn, hcn, hlt⟩
          · rw [hwn, hnone] at hcw
            exact absurd hcw (by simp)
          · rw [hwn, hcn] at hcw
            simp only [Option.some.injEq] at hcw
            refine ⟨(st.costs current).getD 0 + g.weight current n + g.delay n,
              by simp only; rw [hwn]; simp only [if_pos], ?_⟩
            omega
        · exact ⟨cw, by simp only; rw [if_neg hwn]; exact hcw, hle⟩

lemma relaxOne_bound {g : Graph} {obst : List Nat} {blocked : List (Nat × Nat)}
    {current n : Nat} {st : DState} {start : Nat}
    (hadj : g.adj current n = true) (hdom : n ∈ g.support start)
    (hb : Bounded g start st) :
    Bounded g start (relaxOne g obst blocked current n st) := by
  rcases relaxOne_cases g obst blocked current n st with heq | ⟨-, -, -, heq, hold⟩
  · rw [heq]; exact hb
  · have hM := maxStep_nonneg g
    have hstepM := step_le_maxStep hadj
    set k := assignedCount g start st with hk
    have hkS : ∀ v cv, st.costs v = some cv → cv ≤ (k : Int) * g.maxStep := hb
    rcases hold with hnone | ⟨cn, hcn, hlt⟩
    · -- fresh assignment: the count grows by one
      have hcount : assignedCount g start (relaxOne g obst blocked current n st) = k + 1 := by
        rw [hk, assignedCount, assignedCount, heq]
        refine filter_length_update (support_nodup g start) hdom ?_ ?_ ?_
        · rw [hnone]; rfl
        · simp
        · intro v _ hvn
          simp only [if_neg hvn]
      rw [heq] at hcount ⊢
      intro v cv hv
      simp only at hv
      rw [hcount]
      have hmul : ((k + 1 : Nat) : Int) * g.maxStep = (k : Int) * g.maxStep + g.maxStep := by
        push_cast
        ring
      rw [hmul]
      by_cases hvn : v = n
      · rw [if_pos hvn] at hv
        simp only [Option.some.injEq] at hv
        rcases hgd : st.costs current with - | ccur
        · rw [hgd] at hv
          simp only [Option.getD_none] at hv
          have hpos : 0 ≤ (k : Int) * g.maxStep := by positivity
          omega
        · have := hkS current ccur hgd
          rw [hgd] at hv
          simp only [Option.getD_some] at hv
          omega
      · rw [if_neg hvn] at hv
        have := hkS v cv hv
        omega
    · -- strict decrease on an already-assigned node: the count is unchanged
      have hcount : assignedCount g start (relaxOne g obst blocked current n st) = k := by
        rw [hk, assignedCount, assignedCount, heq]
        congr 1
        refine List.filter_congr ?_
        intro v _
        by_cases hvn : v = n
        · simp only [hvn, if_pos]
          rw [hcn]
          rfl
        · simp only [if_neg hvn]
      rw [heq] at hcount ⊢
      intro v cv hv
      simp only at hv
      rw [hcount]
      by_cases hvn : v = n
      · rw [if_pos hvn] at hv
        simp only [Option.some.injEq] at hv
        have := hkS n cn hcn
        omega
      · rw [if_neg hvn] at hv
        exact hkS v cv hv

end Evac

namespace Evac

/-! ### Stability and establishment along a full relaxation pass -/

lemma mem_neighbors_of_adj {g : Graph} {u v : Nat} (h : g.adj u v = true) :
    v ∈ g.neighbors u := by
  rw [Graph.adj, List.any_eq_true] at h
  obtain ⟨e, he, hpe⟩ := h
  rw [Graph.neighbors, List.mem_filterMap]
  refine ⟨e, he, ?_⟩
  simp only [Bool.or_eq_true, Bool.and_eq_true, beq_iff_eq] at hpe
  rcases hpe with ⟨h1, h2⟩ | ⟨h1, h2⟩
  · rw [if_pos (by simp [h1]), h2]
  · by_cases hu : e.1 = u
    · rw [if_pos (by simp [hu])]
      rw [h1] at hu
      rw [h2, hu]
    · rw [if_neg (by simp [hu]), if_pos (by simp [h2]), h1]

lemma relaxOne_stable {g : Graph} {obst : List Nat} {blocked : List (Nat × Nat)}
    {current n : Nat} {st : DState} {ccur : Int}
    (Hw : PosWeights g) (Hd : NonnegDelays g)
    (hadj : g.adj current n = true) (hcur : st.costs current = some ccur) :
    (relaxOne g obst blocked current n st).costs current = some ccur := by
  rcases relaxOne_cases g obst blocked current n st with heq | ⟨-, -, -, heq, hold⟩ <;> rw [heq]
  · exact hcur
  · simp only
    by_cases hcn : current = n
    · rcases hold with hnone | ⟨cn, hcn', hlt⟩
      · rw [← hcn, hcur] at hnone
        exact absurd hnone (by simp)
      · rw [← hcn, hcur] at hcn'
        simp only [Option.some.injEq] at hcn'
        have hstep := step_pos Hw Hd hadj
        rw [hcur] at hlt
        simp only [Option.getD_some] at hlt
        omega
    · rw [if_neg hcn]
      exact hcur

lemma relaxOne_costs_le {g : Graph} {obst : List Nat} {blocked : List (Nat × Nat)}
    {current n : Nat} {st : DState} {v : Nat} {cv : Int}
    (h : st.costs v = some cv) :
    ∃ cv', (relaxOne g obst blocked current n st).costs v = some cv' ∧ cv' ≤ cv := by
  rcases relaxOne_cases g obst blocked current n st with heq | ⟨-, -, -, heq, hold⟩ <;> rw [heq]
  · exact ⟨cv, h, le_refl cv⟩
  · simp only
    by_cases hvn : v = n
    · rcases hold with hnone | ⟨cn, hcn, hlt⟩
      · rw [hvn, hnone] at h
        exact absurd h (by simp)
      · rw [hvn, hcn] at h
        simp only [Option.some.injEq] at h
        refine ⟨(st.costs current).getD 0 + g.weight current n + g.delay n,
          by rw [if_pos hvn], ?_⟩
        omega
    · rw [if_neg hvn]
      exact ⟨cv, h, le_refl cv⟩

lemma relaxAll_costs_le {g : Graph} {obst : List Nat} {blocked : List (Nat × Nat)}
    {current : Nat} :
    ∀ (ns : List Nat) (st : DState) (v : Nat) (cv : Int), st.costs v = some cv →
      ∃ cv', (relaxAll g obst blocked current ns st).costs v = some cv' ∧ cv' ≤ cv := by
  intro ns
  induction ns with
  | nil => intro st v cv h; exact ⟨cv, h, le_refl cv⟩
  | cons n rest ih =>
    intro st v cv h
    rw [relaxAll]
    obtain ⟨cv', h1, h2⟩ := @relaxOne_costs_le g obst blocked current n st v cv h
    obtain ⟨cv'', h3, h4⟩ := ih _ v cv' h1
    exact ⟨cv'', h3, le_trans h4 h2⟩

lemma relaxAll_stable {g : Graph} {obst : List Nat} {blocked : List (Nat × Nat)}
    {current : Nat} (Hw : PosWeights g) (Hd : NonnegDelays g) :
    ∀ (ns : List Nat) (st : DState) (ccur : Int),
      st.costs current = some ccur →
      (∀ n ∈ ns, g.adj current n = true) →
      (relaxAll g obst blocked current ns st).costs current = some ccur := by
  intro ns
  induction ns with
  | nil => intro st ccur h _; exact h
  | cons n rest ih =>
    intro st ccur h hns
    rw [relaxAll]
    exact ih _ ccur (relaxOne_stable Hw Hd (hns n (by simp)) h)
      (fun m hm => hns m (List.mem_cons_of_mem n hm))

lemma relaxOne_establishes_self {g : Graph} {obst : List Nat} {blocked : List (Nat × Nat)}
    {current n : Nat} {st : DState} {ccur : Int}
    (hcur : st.costs current = some ccur)
    (hallow : allowedStep g obst blocked current n) :
    ∃ cn, (relaxOne g obst blocked current n st).costs n = some cn ∧
      cn ≤ ccur + g.weight current n + g.delay n := by
  have hg : ¬ (obst.contains n || blocked.contains (current, n) ||
      blocked.contains (n, current)) = true := by
    rw [hallow.2.1, hallow.2.2.1, hallow.2.2.2]
    simp
  have hgd : (st.costs current).getD 0 = ccur := by rw [hcur]; rfl
  cases hcn : st.costs n with
  | none =>
    refine ⟨(st.costs current).getD 0 + g.weight current n + g.delay n, ?_, by omega⟩
    unfold relaxOne
    rw [if_neg hg, hcn]
    simp
  | some cn =>
    by_cases hlt : (st.costs current).getD 0 + g.weight current n + g.delay n < cn
    · refine ⟨(st.costs current).getD 0 + g.weight current n + g.delay n, ?_, by omega⟩
      unfold relaxOne
      rw [if_neg hg, hcn]
      simp only []
      rw [if_pos hlt]
      simp
    · refine ⟨cn, ?_, by omega⟩
      unfold relaxOne
      rw [if_neg hg, hcn]
      simp only []
      rw [if_neg hlt]
      exact hcn

lemma relaxAll_establishes {g : Graph} {obst : List Nat} {blocked : List (Nat × Nat)}
    {current : Nat} (Hw : PosWeights g) (Hd : NonnegDelays g) :
    ∀ (ns : List Nat) (st : DState) (ccur : Int),
      st.costs current = some ccur →
      (∀ n ∈ ns, g.adj current n = true) →
      ∀ w ∈ ns, allowedStep g obst blocked current w →
        ∃ cw, (relaxAll g obst blocked current ns st).costs w = some cw ∧
          cw ≤ ccur + g.weight current w + g.delay w := by
  intro ns
  induction ns with
  | nil => intro st ccur _ _ w hw; simp at hw
  | cons n rest ih =>
    intro st ccur hcur hns w hw hallow
    rw [relaxAll]
    rcases List.mem_cons.mp hw with rfl | hw'
    · obtain ⟨cn, h1, h2⟩ := relaxOne_establishes_self hcur hallow
      obtain ⟨cn', h3, h4⟩ := relaxAll_costs_le rest _ w cn h1
      exact ⟨cn', h3, le_trans h4 h2⟩
    · exact ih _ ccur (relaxOne_stable Hw Hd (hns n (by simp)) hcur)
        (fun m hm => hns m (List.mem_cons_of_mem n hm)) w hw' hallow

/-- Relaxedness restricted to nodes other than `current`; this is what
survives popping `current`'s queue entry. -/
def RelaxedExcept (g : Graph) (obst : List Nat) (blocked : List (Nat × Nat))
    (current : Nat) (st : DState) : Prop :=
  ∀ v cv, st.costs v = some cv → v ≠ current →
    ((cv, v) ∈ st.queue ∨
     ∀ w, allowedStep g obst blocked v w →
       ∃ cw, st.costs w = some cw ∧ cw ≤ cv + g.weight v w + g.delay w)

lemma relaxOne_relaxedExcept {g : Graph} {obst : List Nat} {blocked : List (Nat × Nat)}
    {current n cur0 : Nat} {st : DState}
    (h : RelaxedExcept g obst blocked cur0 st) :
    RelaxedExcept g obst blocked cur0 (relaxOne g obst blocked current n st) := by
  rcases relaxOne_cases g obst blocked current n st with heq | ⟨-, -, -, heq, hold⟩ <;> rw [heq]
  · exact h
  · intro v cv hv hvc
    simp only at hv
    by_cases hvn : v = n
    · left
      rw [if_pos hvn] at hv
      simp only [Option.some.injEq] at hv
      rw [hvn, ← hv]
      exact List.mem_cons_self _ _
    · rw [if_neg hvn] at hv
      rcases h v cv hv hvc with hq | hr
      · exact .inl (List.mem_cons_of_mem _ hq)
      · right
        intro w hw
        obtain ⟨cw, hcw, hle⟩ := hr w hw
        by_cases hwn : w = n
        · rcases hold with hnone | ⟨cn, hcn, hlt⟩
          · rw [hwn, hnone] at hcw
            exact absurd hcw (by simp)
          · rw [hwn, hcn] at hcw
            simp only [Option.some.injEq] at hcw
            refine ⟨(st.costs current).getD 0 + g.weight current n + g.delay n,
              by simp only; rw [hwn]; simp only [if_pos], ?_⟩
            omega
        · exact ⟨cw, by simp only; rw [if_neg hwn]; exact hcw, hle⟩

lemma relaxAll_relaxedExcept {g : Graph} {obst : List Nat} {blocked : List (Nat × Nat)}
    {current cur0 : Nat} :
    ∀ (ns : List Nat) (st : DState),
      RelaxedExcept g obst blocked cur0 st →
      RelaxedExcept g obst blocked cur0 (relaxAll g obst blocked current ns st) := by
  intro ns
  induction ns with
  | nil => intro st h; exact h
  | cons n rest ih =>
    intro st h
    rw [relaxAll]
    exact ih _ (relaxOne_relaxedExcept h)

end Evac

namespace Evac

/-! ### The loop variant -/

/-- Potential of one node: its tentative cost, or a large default. -/
def pot (g : Graph) (start : Nat) (st : DState) (v : Nat) : Nat :=
  match st.costs v with
  | none => potNone g start
  | some c => c.toNat

/-- The loop variant: queue length plus total node potential. -/
def mu (g : Graph) (start : Nat) (st : DState) : Nat :=
  st.queue.length + ((g.support start).map (pot g start st)).sum

lemma toNat_cast_mul (S : Nat) (M : Int) (hM : 0 ≤ M) :
    ((S : Int) * M).toNat = S * M.toNat := by
  obtain ⟨m, rfl⟩ := Int.eq_ofNat_of_zero_le hM
  rw [← Nat.cast_mul, Int.toNat_natCast, Int.toNat_natCast]

lemma assignedCount_le (g : Graph) (start : Nat) (st : DState) :
    assignedCount g start st ≤ (g.support start).length :=
  List.length_filter_le _ _

lemma cost_le_potNone {g : Graph} {start : Nat} {st : DState} {v : Nat} {c : Int}
    (hnn : CostNonneg st) (hb : Bounded g start st) (h : st.costs v = some c) :
    c.toNat ≤ (g.support start).length * (g.maxStep).toNat := by
  have hc := hb v c h
  have hM := maxStep_nonneg g
  have hk := assignedCount_le g start st
  have h1 : c ≤ ((g.support start).length : Int) * g.maxStep := by
    refine le_trans hc ?_
    exact mul_le_mul_of_nonneg_right (by exact_mod_cast hk) hM
  calc c.toNat ≤ (((g.support start).length : Int) * g.maxStep).toNat := Int.toNat_le_toNat h1
  _ = (g.support start).length * (g.maxStep).toNat := toNat_cast_mul _ _ hM

lemma pot_le_potNone {g : Graph} {start : Nat} {st : DState}
    (hnn : CostNonneg st) (hb : Bounded g start st) (v : Nat) :
    pot g start st v ≤ potNone g start := by
  cases h : st.costs v with
  | none => simp only [pot, h]; exact le_refl _
  | some c =>
    have := cost_le_potNone hnn hb h
    simp only [pot, h, potNone]
    omega

lemma mu_update_le {g : Graph} {start : Nat} (st st2 : DState) (n : Nat) (C : Int)
    (hq : st2.queue.length = st.queue.length + 1)
    (hcn : st2.costs n = some C)
    (hoth : ∀ v, v ≠ n → st2.costs v = st.costs v)
    (hnn2 : CostNonneg st2) (hb2 : Bounded g start st2)
    (hdom : n ∈ g.support start)
    (hdrop : st.costs n = none ∨ ∃ cn, st.costs n = some cn ∧ C < cn) :
    mu g start st2 ≤ mu g start st := by
  have hpoth : ∀ v ∈ g.support start, v ≠ n → pot g start st2 v = pot g start st v := by
    intro v _ hvn
    rw [pot, pot, hoth v hvn]
  have hsum := @sum_map_update (g.support start) (pot g start st) (pot g start st2) n
    (support_nodup g start) hdom hpoth
  have hpot2 : pot g start st2 n = C.toNat := by simp only [pot, hcn]
  have hC0 : 0 ≤ C := hnn2 n C hcn
  have hdrop2 : pot g start st2 n + 1 ≤ pot g start st n := by
    rcases hdrop with hnone | ⟨cn, hcnold, hlt⟩
    · have h1 := cost_le_potNone hnn2 hb2 hcn
      rw [hpot2]
      simp only [pot, hnone, potNone]
      omega
    · rw [hpot2]
      simp only [pot, hcnold]
      omega
  rw [mu, mu, hq]
  omega

lemma relaxOne_mu {g : Graph} {obst : List Nat} {blocked : List (Nat × Nat)}
    {current n : Nat} {st : DState} {start : Nat}
    (Hw : PosWeights g) (Hd : NonnegDelays g)
    (hadj : g.adj current n = true) (hdom : n ∈ g.support start)
    (hnn : CostNonneg st) (hb : Bounded g start st) :
    mu g start (relaxOne g obst blocked current n st) ≤ mu g start st := by
  have hnn' := @relaxOne_nonneg g obst blocked current n st Hw Hd hadj hnn
  have hb' := @relaxOne_bound g obst blocked current n st start hadj hdom hb
  rcases relaxOne_cases g obst blocked current n st with heq | ⟨-, -, -, heq, hold⟩
  · rw [heq]
  · refine mu_update_le st _ n ((st.costs current).getD 0 + g.weight current n + g.delay n)
      ?_ ?_ ?_ hnn' hb' hdom hold
    · rw [heq]; rfl
    · rw [heq]; simp
    · intro v hvn
      rw [heq]
      simp only
      rw [if_neg hvn]

lemma relaxAll_mu {g : Graph} {obst : List Nat} {blocked : List (Nat × Nat)}
    {current : Nat} {start : Nat} (Hw : PosWeights g) (Hd : NonnegDelays g) :
    ∀ (ns : List Nat) (st : DState),
      (∀ n ∈ ns, g.adj current n = true ∧ n ∈ g.support start) →
      CostNonneg st → Bounded g start st →
      mu g start (relaxAll g obst blocked current ns st) ≤ mu g start st := by
  intro ns
  induction ns with
  | nil => intro st _ _ _; exact le_refl _
  | cons n rest ih =>
    intro st hns hnn hb
    rw [relaxAll]
    refine le_trans (ih _ (fun m hm => hns m (List.mem_cons_of_mem n hm))
      (relaxOne_nonneg Hw Hd (hns n (by simp)).1 hnn)
      (relaxOne_bound (hns n (by simp)).1 (hns n (by simp)).2 hb)) ?_
    exact relaxOne_mu Hw Hd (hns n (by simp)).1 (hns n (by simp)).2 hnn hb

end Evac

namespace Evac

lemma relaxAll_core {g : Graph} {obst : List Nat} {blocked : List (Nat × Nat)}
    {current : Nat} {start : Nat} (Hw : PosWeights g) (Hd : NonnegDelays g) :
    ∀ (ns : List Nat) (st : DState),
      (∀ n ∈ ns, g.adj current n = true ∧ n ∈ g.support start) →
      CostNonneg st → st.costs start = some 0 → Bounded g start st →
      CostNonneg (relaxAll g obst blocked current ns st) ∧
      (relaxAll g obst blocked current ns st).costs start = some 0 ∧
      Bounded g start (relaxAll g obst blocked current ns st) := by
  intro ns
  induction ns with
  | nil => intro st _ hnn h0 hb; exact ⟨hnn, h0, hb⟩
  | cons n rest ih =>
    intro st hns hnn h0 hb
    rw [relaxAll]
    exact ih _ (fun m hm => hns m (List.mem_cons_of_mem n hm))
      (relaxOne_nonneg Hw Hd (hns n (by simp)).1 hnn)
      (relaxOne_start0 Hw Hd (hns n (by simp)).1 hnn h0)
      (relaxOne_bound (hns n (by simp)).1 (hns n (by simp)).2 hb)

lemma dstep_next_inv {g : Graph} {obst : List Nat} {blocked : List (Nat × Nat)}
    {start endN : Nat} {st T : DState}
    (Hw : PosWeights g) (Hd : NonnegDelays g)
    (hS : SafeInv g obst blocked start st) (hC : CostInv g obst blocked start st)
    (h : dstep g obst blocked endN st = .next T) :
    CostInv g obst blocked start T ∧ mu g start T < mu g start st := by
  rw [dstep] at h
  cases hpop : popMin st.queue with
  | none => rw [hpop] at h; exact absurd h (by simp)
  | some p =>
    obtain ⟨⟨c, current⟩, rest⟩ := p
    rw [hpop] at h
    dsimp only at h
    by_cases hce : current = endN
    · rw [if_pos hce] at h; exact absurd h (by simp)
    · rw [if_neg hce] at h
      simp only [StepRes.next.injEq] at h
      subst h
      have hmemq : (c, current) ∈ st.queue := popMin_mem hpop
      obtain ⟨ccur, hccur, hcc⟩ := hS.queueCosts c current hmemq
      have hns : ∀ n ∈ g.neighbors current, g.adj current n = true ∧ n ∈ g.support start :=
        fun n hn => ⟨adj_of_mem_neighbors hn, mem_support_of_mem_neighbors start hn⟩
      have hnn1 : CostNonneg { st with queue := rest } := hC.nonneg
      have h01 : ({ st with queue := rest } : DState).costs start = some 0 := hC.start0
      have hb1 : Bounded g start { st with queue := rest } := hC.bound
      have hcur1 : ({ st with queue := rest } : DState).costs current = some ccur := hccur
      have hre1 : RelaxedExcept g obst blocked current { st with queue := rest } := by
        intro v cv hv hvc
        rcases hC.relaxed v cv hv with hq | hr
        · left
          refine popMin_mem_rest hpop _ hq ?_
          intro heq2
          exact hvc (congrArg Prod.snd heq2)
        · exact .inr hr
      have hcore := @relaxAll_core g obst blocked current start Hw Hd
        (g.neighbors current) _ hns hnn1 h01 hb1
      have hstab := @relaxAll_stable g obst blocked current Hw Hd
        (g.neighbors current) _ ccur hcur1 (fun n hn => (hns n hn).1)
      have hre2 := @relaxAll_relaxedExcept g obst blocked current current
        (g.neighbors current) _ hre1
      constructor
      · refine ⟨hcore.1, hcore.2.1, ?_, hcore.2.2⟩
        intro v cv hv
        by_cases hvc : v = current
        · right
          intro w hw
          have hcv : cv = ccur := by
            rw [hvc] at hv
            rw [hstab] at hv
            simp only [Option.some.injEq] at hv
            omega
          have hw' : allowedStep g obst blocked current w := by
            rw [← hvc]
            exact hw
          obtain ⟨cw, h1, h2⟩ := @relaxAll_establishes g obst blocked current
            Hw Hd (g.neighbors current) _ ccur
            hcur1 (fun n hn => (hns n hn).1) w (mem_neighbors_of_adj hw'.1) hw'
          refine ⟨cw, h1, ?_⟩
          have hwv : g.weight v w = g.weight current w := by rw [hvc]
          rw [hwv, hcv]
          exact h2
        · exact hre2 v cv hv hvc
      · have hlen := popMin_length hpop
        have h2 := @relaxAll_mu g obst blocked current start Hw Hd
          (g.neighbors current) _ hns hnn1 hb1
        have h3 : mu g start { st with queue := rest } =
            rest.length + ((g.support start).map (pot g start st)).sum := rfl
        have h4 : mu g start st =
            st.queue.length + ((g.support start).map (pot g start st)).sum := rfl
        rw [h3] at h2
        rw [h4]
        omega

end Evac

namespace Evac

/-! ### Loop termination within the fuel bound -/

lemma dloop_isSome {g : Graph} {obst : List Nat} {blocked : List (Nat × Nat)}
    {start endN : Nat} (Hw : PosWeights g) (Hd : NonnegDelays g) :
    ∀ (f : Nat) (st : DState), SafeInv g obst blocked start st →
      CostInv g obst blocked start st → mu g start st ≤ f →
      (dloop g obst blocked endN f st).isSome := by
  intro f
  induction f with
  | zero =>
    intro st hS hC hmu
    rw [dloop]
    cases hd : dstep g obst blocked endN st with
    | stop s' => simp
    | next s' =>
      exfalso
      have := (dstep_next_inv Hw Hd hS hC hd).2
      omega
  | succ f ih =>
    intro st hS hC hmu
    rw [dloop]
    cases hd : dstep g obst blocked endN st with
    | stop s' => simp
    | next s' =>
      have h1 := dstep_next_inv Hw Hd hS hC hd
      simp only []
      exact ih s' (dstep_safe_next hS hd) h1.1 (by omega)

/-- The queue-independent part of the cost invariant, which survives the
final (breaking) pop. -/
def CostPost (g : Graph) (start : Nat) (st : DState) : Prop :=
  CostNonneg st ∧ st.costs start = some 0 ∧ Bounded g start st

lemma dstep_stop_cost {g : Graph} {obst : List Nat} {blocked : List (Nat × Nat)}
    {start endN : Nat} {st T : DState} (hC : CostInv g obst blocked start st)
    (h : dstep g obst blocked endN st = .stop T) :
    CostPost g start T := by
  rw [dstep] at h
  cases hpop : popMin st.queue with
  | none =>
    rw [hpop] at h
    simp only [StepRes.stop.injEq] at h
    exact h ▸ ⟨hC.nonneg, hC.start0, hC.bound⟩
  | some p =>
    obtain ⟨⟨c, current⟩, rest⟩ := p
    rw [hpop] at h
    dsimp only at h
    by_cases hce : current = endN
    · rw [if_pos hce] at h
      simp only [StepRes.stop.injEq] at h
      subst h
      exact ⟨hC.nonneg, hC.start0, hC.bound⟩
    · rw [if_neg hce] at h
      exact absurd h (by simp)

lemma dloop_cost {g : Graph} {obst : List Nat} {blocked : List (Nat × Nat)}
    {start endN : Nat} (Hw : PosWeights g) (Hd : NonnegDelays g) :
    ∀ (f : Nat) (st T : DState), SafeInv g obst blocked start st →
      CostInv g obst blocked start st →
      dloop g obst blocked endN f st = some T → CostPost g start T := by
  intro f
  induction f with
  | zero =>
    intro st T hS hC hdl
    rw [dloop] at hdl
    cases hd : dstep g obst blocked endN st <;> rw [hd] at hdl
    · simp only [Option.some.injEq] at hdl
      exact hdl ▸ dstep_stop_cost hC hd
    · exact absurd hdl (by simp)
  | succ f ih =>
    intro st T hS hC hdl
    rw [dloop] at hdl
    cases hd : dstep g obst blocked endN st <;> rw [hd] at hdl
    · simp only [Option.some.injEq] at hdl
      exact hdl ▸ dstep_stop_cost hC hd
    · exact ih _ T (dstep_safe_next hS hd) (dstep_next_inv Hw Hd hS hC hd).1 hdl

/-! ### Completeness: the final cost of `end` is a lower bound over all walks -/

/-- The last node of the walk `a :: q`. -/
def listEnd (a : Nat) (q : List Nat) : Nat := ((a :: q).getLast?).getD a

lemma listEnd_nil (a : Nat) : listEnd a [] = a := rfl

lemma listEnd_cons (a b : Nat) (q : List Nat) : listEnd a (b :: q) = listEnd b q := by
  rw [listEnd, listEnd, List.getLast?_cons_cons]
  have h : (b :: q).getLast?.isSome := by
    rw [List.getLast?_isSome]
    simp
  obtain ⟨x, hx⟩ := Option.isSome_iff_exists.mp h
  rw [hx]
  rfl

lemma listEnd_eq_of_getLast {a e : Nat} {q : List Nat}
    (h : (a :: q).getLast? = some e) : listEnd a q = e := by
  rw [listEnd, h]
  rfl

lemma relax_walk {g : Graph} {obst : List Nat} {blocked : List (Nat × Nat)} {st : DState}
    (hrel : ∀ v cv, st.costs v = some cv → ∀ w, allowedStep g obst blocked v w →
      ∃ cw, st.costs w = some cw ∧ cw ≤ cv + g.weight v w + g.delay w) :
    ∀ (q : List Nat) (a : Nat) (ca : Int), IsWalk g obst blocked a q →
      st.costs a = some ca →
      ∃ cl, st.costs (listEnd a q) = some cl ∧ cl ≤ ca + walkCost g a q := by
  intro q
  induction q with
  | nil =>
    intro a ca _ hca
    exact ⟨ca, by rw [listEnd_nil]; exact hca, by rw [walkCost]; omega⟩
  | cons b q' ih =>
    intro a ca hw hca
    cases hw with
    | cons hstep hrest =>
      obtain ⟨cb, hcb, hle⟩ := hrel a ca hca b hstep
      obtain ⟨cl, hcl, hle2⟩ := ih b cb hrest hcb
      refine ⟨cl, by rw [listEnd_cons]; exact hcl, ?_⟩
      rw [walkCost]
      omega

lemma relax_walk_mixed {g : Graph} {obst : List Nat} {blocked : List (Nat × Nat)}
    {e : Nat} {st : DState} (Hw : PosWeights g) (Hd : NonnegDelays g)
    (hrel : Relaxed g obst blocked st)
    {c : Int} {rest : List (Int × Nat)} (hpop : popMin st.queue = some ((c, e), rest))
    {ce : Int} (hce : st.costs e = some ce) (hcec : ce ≤ c) :
    ∀ (q : List Nat) (a : Nat) (ca : Int), IsWalk g obst blocked a q →
      st.costs a = some ca →
      ce ≤ ca + walkCost g a q ∨
      ∃ cl, st.costs (listEnd a q) = some cl ∧ cl ≤ ca + walkCost g a q := by
  intro q
  induction q with
  | nil =>
    intro a ca _ hca
    exact .inr ⟨ca, by rw [listEnd_nil]; exact hca, by rw [walkCost]; omega⟩
  | cons b q' ih =>
    intro a ca hw hca
    cases hw with
    | cons hstep hrest =>
      rcases hrel a ca hca with hqa | hra
      · left
        have hle := popMin_le hpop _ hqa
        have hfst := pairLe_fst hle
        have hwc : 0 ≤ walkCost g a (b :: q') :=
          walkCost_nonneg Hw Hd (IsWalk.cons hstep hrest)
        simp only at hfst
        omega
      · obtain ⟨cb, hcb, hle⟩ := hra b hstep
        rcases ih b cb hrest hcb with h1 | ⟨cl, hcl, hle2⟩
        · left
          rw [walkCost]
          omega
        · right
          rw [listEnd_cons]
          exact ⟨cl, hcl, by rw [walkCost]; omega⟩

/-- `Completes T`: the cost recorded for `e` in `T` undercuts every allowed
walk from `start` to `e`. -/
def Completes (g : Graph) (obst : List Nat) (blocked : List (Nat × Nat))
    (start e : Nat) (T : DState) : Prop :=
  ∀ q : List Nat, IsWalk g obst blocked start q → (start :: q).getLast? = some e →
    ∃ ce, T.costs e = some ce ∧ ce ≤ walkCost g start q

lemma dstep_stop_complete {g : Graph} {obst : List Nat} {blocked : List (Nat × Nat)}
    {start e : Nat} {st T : DState} (Hw : PosWeights g) (Hd : NonnegDelays g)
    (hS : SafeInv g obst blocked start st) (hC : CostInv g obst blocked start st)
    (h : dstep g obst blocked e st = .stop T) :
    Completes g obst blocked start e T := by
  rw [dstep] at h
  cases hpop : popMin st.queue with
  | none =>
    rw [hpop] at h
    simp only [StepRes.stop.injEq] at h
    subst h
    have hempty : st.queue = [] := popMin_eq_none.mp hpop
    have hfull : ∀ v cv, st.costs v = some cv → ∀ w, allowedStep g obst blocked v w →
        ∃ cw, st.costs w = some cw ∧ cw ≤ cv + g.weight v w + g.delay w := by
      intro v cv hv
      rcases hC.relaxed v cv hv with hq | hr
      · rw [hempty] at hq
        exact absurd hq (by simp)
      · exact hr
    intro q hwq hl
    obtain ⟨cl, hcl, hle⟩ := relax_walk hfull q start 0 hwq hC.start0
    rw [listEnd_eq_of_getLast hl] at hcl
    exact ⟨cl, hcl, by omega⟩
  | some p =>
    obtain ⟨⟨c, current⟩, rest⟩ := p
    rw [hpop] at h
    dsimp only at h
    by_cases hce : current = e
    · rw [if_pos hce] at h
      simp only [StepRes.stop.injEq] at h
      subst h
      subst hce
      obtain ⟨ce, hcee, hcec⟩ := hS.queueCosts c current (popMin_mem hpop)
      intro q hwq hl
      rcases relax_walk_mixed Hw Hd hC.relaxed hpop hcee hcec q start 0 hwq hC.start0
        with h1 | ⟨cl, hcl, hle⟩
      · exact ⟨ce, hcee, by omega⟩
      · rw [listEnd_eq_of_getLast hl] at hcl
        exact ⟨cl, hcl, by omega⟩
    · rw [if_neg hce] at h
      exact absurd h (by simp)

lemma dloop_complete {g : Graph} {obst : List Nat} {blocked : List (Nat × Nat)}
    {start e : Nat} (Hw : PosWeights g) (Hd : NonnegDelays g) :
    ∀ (f : Nat) (st T : DState), SafeInv g obst blocked start st →
      CostInv g obst blocked start st →
      dloop g obst blocked e f st = some T → Completes g obst blocked start e T := by
  intro f
  induction f with
  | zero =>
    intro st T hS hC hdl
    rw [dloop] at hdl
    cases hd : dstep g obst blocked e st <;> rw [hd] at hdl
    · simp only [Option.some.injEq] at hdl
      exact hdl ▸ dstep_stop_complete Hw Hd hS hC hd
    · exact absurd hdl (by simp)
  | succ f ih =>
    intro st T hS hC hdl
    rw [dloop] at hdl
    cases hd : dstep g obst blocked e st <;> rw [hd] at hdl
    · simp only [Option.some.injEq] at hdl
      exact hdl ▸ dstep_stop_complete Hw Hd hS hC hd
    · exact ih _ T (dstep_safe_next hS hd) (dstep_next_inv Hw Hd hS hC hd).1 hdl

end Evac

namespace Evac

lemma nodup_append_single {l : List Nat} {x : Nat} (h : l.Nodup) (hx : x ∉ l) :
    (l ++ [x]).Nodup := by
  rw [List.nodup_append]
  refine ⟨h, List.nodup_singleton x, ?_⟩
  intro a ha hax
  simp only [List.mem_singleton] at hax
  subst hax
  exact hx ha

lemma buildPath_success {g : Graph} {obst : List Nat} {blocked : List (Nat × Nat)}
    {start : Nat} {T : DState}
    (Hw : PosWeights g) (Hd : NonnegDelays g)
    (hVT : ∀ v, v ≠ start → T.costs v ≠ none → T.visited v ≠ none)
    (hVC : ∀ v u, T.visited v = some u →
      ∃ cu cv, T.costs u = some cu ∧ T.costs v = some cv ∧
        cu + g.weight u v + g.delay v ≤ cv)
    (hVS : ∀ v u, T.visited v = some u → allowedStep g obst blocked u v)
    (hnn : CostNonneg T) (h0 : T.costs start = some 0) :
    ∀ (fuel : Nat) (node : Nat) (ce : Int) (acc : List Nat),
      T.costs node = some ce → ce.toNat < fuel →
      ∃ ch, buildPath T.visited start fuel node acc = some ((start :: ch) ++ acc) ∧
        IsWalk g obst blocked start ch ∧ (start :: ch).getLast? = some node ∧
        walkCost g start ch ≤ ce ∧ (start :: ch).Nodup ∧
        (∀ x ∈ start :: ch, ∃ cx, T.costs x = some cx ∧ cx ≤ ce) := by
  intro fuel
  induction fuel with
  | zero => intro node ce acc _ hf; omega
  | succ f ih =>
    intro node ce acc hnode hf
    by_cases hns : node = start
    · refine ⟨[], ?_, .nil start, ?_, ?_, by simp, ?_⟩
      · rw [buildPath, if_pos hns]
        rfl
      · simp only [List.getLast?_singleton, Option.some.injEq]
        exact hns.symm
      · have hce0 : ce = 0 := by
          rw [hns, h0] at hnode
          simp only [Option.some.injEq] at hnode
          omega
        rw [walkCost]
        omega
      · intro x hx
        simp only [List.mem_singleton] at hx
        subst hx
        exact ⟨ce, hns ▸ hnode, le_refl ce⟩
    · have hvt := hVT node hns (by rw [hnode]; simp)
      cases hv : T.visited node with
      | none => exact absurd hv hvt
      | some prev =>
        obtain ⟨cp, cv', h1, h2, h3⟩ := hVC node prev hv
        have hstep := hVS node prev hv
        have hcv' : cv' = ce := by
          rw [hnode] at h2
          simp only [Option.some.injEq] at h2
          omega
        have hwpos := step_pos Hw Hd hstep.1
        have hcp0 : 0 ≤ cp := hnn prev cp h1
        have hfuel : cp.toNat < f := by omega
        obtain ⟨ch', hbp, hwalk, hlast, hcost, hnodup, hmem⟩ := ih prev cp (node :: acc) h1 hfuel
        have hnotin : node ∉ start :: ch' := by
          intro hmem2
          obtain ⟨cx, hcx, hcxle⟩ := hmem node hmem2
          rw [hnode] at hcx
          simp only [Option.some.injEq] at hcx
          omega
        refine ⟨ch' ++ [node], ?_, ?_, ?_, ?_, ?_, ?_⟩
        · rw [buildPath, if_neg hns, hv]
          dsimp only
          rw [hbp]
          congr 1
          simp
        · exact isWalk_append_single hwalk hlast hstep
        · exact getLast?_cons_append_single start ch' node
        · rw [walkCost_append_single node ch' start prev hlast]
          omega
        · exact nodup_append_single (l := start :: ch') hnodup hnotin
        · intro x hx
          rcases List.mem_cons.mp hx with rfl | hx'
          · obtain ⟨cx, hcx, hcxle⟩ := hmem x (by simp)
            exact ⟨cx, hcx, by omega⟩
          · rcases List.mem_append.mp hx' with hx'' | hx''
            · obtain ⟨cx, hcx, hcxle⟩ := hmem x (List.mem_cons_of_mem start hx'')
              exact ⟨cx, hcx, by omega⟩
            · simp only [List.mem_singleton] at hx''
              subst hx''
              exact ⟨ce, hnode, le_refl ce⟩

end Evac

namespace Evac

lemma costInv_init (g : Graph) (obst : List Nat) (blocked : List (Nat × Nat)) (start : Nat) :
    CostInv g obst blocked start (initState start) := by
  have hM := maxStep_nonneg g
  refine ⟨?_, ?_, ?_, ?_⟩
  · intro v cv hv
    by_cases hvs : v = start
    · simp only [initState, if_pos hvs] at hv
      simp only [Option.some.injEq] at hv
      omega
    · simp only [initState, if_neg hvs] at hv
      exact absurd hv (by simp)
  · simp [initState]
  · intro v cv hv
    by_cases hvs : v = start
    · left
      simp only [initState, if_pos hvs] at hv
      simp only [Option.some.injEq] at hv
      rw [hvs, ← hv]
      simp [initState]
    · simp only [initState, if_neg hvs] at hv
      exact absurd hv (by simp)
  · intro v cv hv
    by_cases hvs : v = start
    · simp only [initState, if_pos hvs] at hv
      simp only [Option.some.injEq] at hv
      have : (0 : Int) ≤ (assignedCount g start (initState start) : Int) * g.maxStep :=
        mul_nonneg (by positivity) hM
      omega
    · simp only [initState, if_neg hvs] at hv
      exact absurd hv (by simp)

lemma mu_init_le (g : Graph) (start : Nat) :
    mu g start (initState start) ≤ fuelBound g start := by
  have hpot : ∀ v ∈ g.support start, pot g start (initState start) v ≤ potNone g start := by
    intro v _
    by_cases hvs : v = start
    · simp only [pot, initState, if_pos hvs]
      simp [potNone]
    · simp only [pot, initState, if_neg hvs]
      exact le_refl _
  have hsum := sum_map_le_length_mul hpot
  have hq : (initState start).queue.length = 1 := rfl
  rw [mu, fuelBound]
  omega

/-- C1: on a graph with strictly positive weights and non-negative delays,
with empty obstacle and blocked-edge sets and `end` reachable from `start`,
`find_path` returns a path whose total cost is the minimum, over all simple
paths from `start` to `end`, of the sum of edge weights plus the delay of
each node the path arrives at (the start node's delay is never charged): the
returned path is itself such a simple path attaining the returned cost, and
the returned cost is a lower bound on the cost of every simple path. -/
theorem find_path_optimal (g : Graph) (s e : Nat)
    (Hw : PosWeights g) (Hd : NonnegDelays g)
    (hreach : Reach g [] [] s e) :
    ∃ rest c, find_path g [] [] s e = (s :: rest, c) ∧
      IsWalk g [] [] s rest ∧ (s :: rest).getLast? = some e ∧ (s :: rest).Nodup ∧
      walkCost g s rest = c ∧
      ∀ q, IsWalk g [] [] s q → (s :: q).getLast? = some e → (s :: q).Nodup →
        c ≤ walkCost g s q := by
  have hS0 := safeInv_init g [] [] s
  have hC0 := costInv_init g [] [] s
  have hissome := @dloop_isSome g [] [] s e Hw Hd (fuelBound g s) (initState s) hS0 hC0
    (mu_init_le g s)
  obtain ⟨T, hdl⟩ := Option.isSome_iff_exists.mp hissome
  have hST := dloop_safe _ _ _ hS0 hdl
  have hCP := dloop_cost Hw Hd _ _ _ hS0 hC0 hdl
  have hcomp := dloop_complete Hw Hd _ _ _ hS0 hC0 hdl
  obtain ⟨q0, hw0, hl0⟩ := hreach
  obtain ⟨ce, hce, -⟩ := hcomp q0 hw0 hl0
  have hfe : ce.toNat < pathFuel g s := by
    have h1 := cost_le_potNone hCP.1 hCP.2.2 hce
    rw [pathFuel, potNone]
    omega
  obtain ⟨ch, hbp, hwalk, hlast, hcost, hnodup, -⟩ :=
    buildPath_success Hw Hd hST.visitedTotal hST.visitedCosts hST.visitedStep
      hCP.1 hCP.2.1 (pathFuel g s) e ce [] hce hfe
  rw [List.append_nil] at hbp
  have hres : find_path g [] [] s e = (s :: ch, ce) := by
    rw [find_path_eq, hdl]
    dsimp only
    rw [hbp]
    simp only [hce, Option.getD_some]
  obtain ⟨ce2, hce2, hle2⟩ := hcomp ch hwalk hlast
  have hce2e : ce2 = ce := by
    rw [hce] at hce2
    simp only [Option.some.injEq] at hce2
    omega
  refine ⟨ch, ce, hres, hwalk, hlast, hnodup, by omega, ?_⟩
  intro q hq hlq _
  obtain ⟨ce3, hce3, hle3⟩ := hcomp q hq hlq
  have hce3e : ce3 = ce := by
    rw [hce] at hce3
    simp only [Option.some.injEq] at hce3
    omega
  omega

/-- Witness for C1: on the line graph, the optimal route from 0 to 3 is found
with minimal cost over all simple paths. -/
theorem find_path_optimal_witness :
    ∃ rest c, find_path lineGraph [] [] 0 3 = (0 :: rest, c) ∧
      IsWalk lineGraph [] [] 0 rest ∧ (0 :: rest).getLast? = some 3 ∧
      (0 :: rest).Nodup ∧ walkCost lineGraph 0 rest = c ∧
      ∀ q, IsWalk lineGraph [] [] 0 q → (0 :: q).getLast? = some 3 →
        (0 :: q).Nodup → c ≤ walkCost lineGraph 0 q :=
  find_path_optimal lineGraph 0 3 (by unfold PosWeights; decide) (by unfold NonnegDelays; decide)
    ⟨[1, 2, 3], .cons (by decide) (.cons (by decide) (.cons (by decide) (.nil 3))), by decide⟩

end Evac

namespace Evac

/-! ### C8: the start node's obstacle status and delay are unobservable -/

/-- The line graph with the start node's delay set to 5: used to witness
that changing the start node's delay does not change the result. -/
def lineGraphStart : Graph :=
  ⟨[(0, 5), (1, 0), (2, 0), (3, 0)], [(0, 1, 1), (1, 2, 1), (2, 3, 1)]⟩

lemma dloop_mono {g : Graph} {obst : List Nat} {blocked : List (Nat × Nat)} {endN : Nat} :
    ∀ (f f' : Nat) (st T : DState), f ≤ f' →
      dloop g obst blocked endN f st = some T →
      dloop g obst blocked endN f' st = some T := by
  intro f
  induction f with
  | zero =>
    intro f' st T _ h
    rw [dloop] at h
    cases hd : dstep g obst blocked endN st <;> rw [hd] at h
    · rw [dloop, hd]; exact h
    · exact absurd h (by simp)
  | succ f ih =>
    intro f' st T hle h
    rw [dloop] at h
    cases hd : dstep g obst blocked endN st <;> rw [hd] at h
    · rw [dloop, hd]; exact h
    · cases f' with
      | zero => omega
      | succ f2 =>
        rw [dloop, hd]
        exact ih f2 _ T (by omega) h

lemma buildPath_mono {visited : Nat → Option Nat} {start : Nat} :
    ∀ (f f' node : Nat) (acc p : List Nat), f ≤ f' →
      buildPath visited start f node acc = some p →
      buildPath visited start f' node acc = some p := by
  intro f
  induction f with
  | zero => intro f' node acc p _ h; exact absurd h (by simp [buildPath])
  | succ f ih =>
    intro f' node acc p hle h
    cases f' with
    | zero => omega
    | succ f2 =>
      rw [buildPath] at h
      rw [buildPath]
      by_cases hns : node = start
      · rw [if_pos hns] at h ⊢; exact h
      · rw [if_neg hns] at h ⊢
        cases hv : visited node with
        | none => rw [hv] at h; exact h
        | some prev => rw [hv] at h; exact ih f2 prev (node :: acc) p (by omega) h

lemma weight_congr {g1 g2 : Graph} (hedges : g1.edges = g2.edges) (u v : Nat) :
    g1.weight u v = g2.weight u v := by
  simp only [Graph.weight, hedges]

lemma adj_congr {g1 g2 : Graph} (hedges : g1.edges = g2.edges) (u v : Nat) :
    g1.adj u v = g2.adj u v := by
  simp only [Graph.adj, hedges]

lemma neighbors_congr {g1 g2 : Graph} (hedges : g1.edges = g2.edges) (u : Nat) :
    g1.neighbors u = g2.neighbors u := by
  simp only [Graph.neighbors, hedges]

lemma posWeights_congr {g1 g2 : Graph} (hedges : g1.edges = g2.edges)
    (Hw : PosWeights g1) : PosWeights g2 := by
  intro x hx
  exact Hw x (by rw [hedges]; exact hx)

/-- With non-negative data, a relaxation into the start node is always a
no-op: the start's tentative cost is 0 and every candidate cost is
positive, so the `cost < costs[next_node]` test fails. -/
lemma relaxOne_into_start {g : Graph} {obst : List Nat} {blocked : List (Nat × Nat)}
    {current s : Nat} {st : DState}
    (Hw : PosWeights g) (Hd : NonnegDelays g)
    (hadj : g.adj current s = true)
    (hnn : CostNonneg st) (h0 : st.costs s = some 0) :
    relaxOne g obst blocked current s st = st := by
  rcases relaxOne_cases g obst blocked current s st with heq | ⟨-, -, -, heq, hold⟩
  · exact heq
  · exfalso
    have hpos := @relaxOne_newcost_pos g st current s Hw Hd hadj hnn
    rcases hold with hnone | ⟨cn, hcn, hlt⟩
    · rw [h0] at hnone
      exact absurd hnone (by simp)
    · rw [h0] at hcn
      simp only [Option.some.injEq] at hcn
      omega

/-- A single relaxation cannot see the start node's obstacle status or
delay: two environments that agree away from `s` produce the same state. -/
lemma relaxOne_congr {g1 g2 : Graph} {O1 O2 : List Nat} {blocked : List (Nat × Nat)}
    {s : Nat}
    (Hw1 : PosWeights g1) (Hd1 : NonnegDelays g1) (Hd2 : NonnegDelays g2)
    (hedges : g1.edges = g2.edges)
    (hdel : ∀ v, v ≠ s → g1.delay v = g2.delay v)
    (hobst : ∀ v, v ≠ s → O1.contains v = O2.contains v)
    (current n : Nat) (st : DState)
    (hadj : g1.adj current n = true)
    (hnn : CostNonneg st) (h0 : st.costs s = some 0) :
    relaxOne g1 O1 blocked current n st = relaxOne g2 O2 blocked current n st := by
  by_cases hns : n = s
  · subst hns
    rw [relaxOne_into_start Hw1 Hd1 hadj hnn h0,
        relaxOne_into_start (posWeights_congr hedges Hw1) Hd2
          (by rw [← adj_congr hedges]; exact hadj) hnn h0]
  · simp only [relaxOne, hobst n hns, weight_congr hedges current n, hdel n hns]

lemma relaxAll_congr {g1 g2 : Graph} {O1 O2 : List Nat} {blocked : List (Nat × Nat)}
    {s : Nat}
    (Hw1 : PosWeights g1) (Hd1 : NonnegDelays g1) (Hd2 : NonnegDelays g2)
    (hedges : g1.edges = g2.edges)
    (hdel : ∀ v, v ≠ s → g1.delay v = g2.delay v)
    (hobst : ∀ v, v ≠ s → O1.contains v = O2.contains v)
    (current : Nat) :
    ∀ (ns : List Nat) (st : DState),
      (∀ n ∈ ns, g1.adj current n = true) →
      CostNonneg st → st.costs s = some 0 →
      relaxAll g1 O1 blocked current ns st = relaxAll g2 O2 blocked current ns st := by
  intro ns
  induction ns with
  | nil => intro st _ _ _; rfl
  | cons n rest ih =>
    intro st hns hnn h0
    rw [relaxAll, relaxAll,
        ← relaxOne_congr Hw1 Hd1 Hd2 hedges hdel hobst current n st (hns n (by simp)) hnn h0]
    exact ih _ (fun m hm => hns m (List.mem_cons_of_mem n hm))
      (relaxOne_nonneg Hw1 Hd1 (hns n (by simp)) hnn)
      (relaxOne_start0 Hw1 Hd1 (hns n (by simp)) hnn h0)

lemma dstep_congr {g1 g2 : Graph} {O1 O2 : List Nat} {blocked : List (Nat × Nat)}
    {s endN : Nat}
    (Hw1 : PosWeights g1) (Hd1 : NonnegDelays g1) (Hd2 : NonnegDelays g2)
    (hedges : g1.edges = g2.edges)
    (hdel : ∀ v, v ≠ s → g1.delay v = g2.delay v)
    (hobst : ∀ v, v ≠ s → O1.contains v = O2.contains v)
    (st : DState) (hnn : CostNonneg st) (h0 : st.costs s = some 0) :
    dstep g1 O1 blocked endN st = dstep g2 O2 blocked endN st := by
  rw [dstep, dstep]
  cases hpop : popMin st.queue with
  | none => rfl
  | some p =>
    obtain ⟨⟨c, current⟩, rest⟩ := p
    dsimp only
    by_cases hce : current = endN
    · rw [if_pos hce, if_pos hce]
    · rw [if_neg hce, if_neg hce]
      have hn : ∀ n ∈ g1.neighbors current, g1.adj current n = true :=
        fun n hn => adj_of_mem_neighbors hn
      have hnn2 : CostNonneg { st with queue := rest } := hnn
      have h02 : ({ st with queue := rest } : DState).costs s = some 0 := h0
      rw [relaxAll_congr Hw1 Hd1 Hd2 hedges hdel hobst current (g1.neighbors current) _
            hn hnn2 h02,
          neighbors_congr hedges current]

lemma dloop_congr {g1 g2 : Graph} {O1 O2 : List Nat} {blocked : List (Nat × Nat)}
    {s endN : Nat}
    (Hw1 : PosWeights g1) (Hd1 : NonnegDelays g1) (Hd2 : NonnegDelays g2)
    (hedges : g1.edges = g2.edges)
    (hdel : ∀ v, v ≠ s → g1.delay v = g2.delay v)
    (hobst : ∀ v, v ≠ s → O1.contains v = O2.contains v) :
    ∀ (f : Nat) (st : DState),
      SafeInv g1 O1 blocked s st → CostInv g1 O1 blocked s st →
      dloop g1 O1 blocked endN f st = dloop g2 O2 blocked endN f st := by
  intro f
  induction f with
  | zero =>
    intro st hS hC
    rw [dloop, dloop, ← dstep_congr Hw1 Hd1 Hd2 hedges hdel hobst st hC.nonneg hC.start0]
  | succ f ih =>
    intro st hS hC
    rw [dloop, dloop, ← dstep_congr Hw1 Hd1 Hd2 hedges hdel hobst st hC.nonneg hC.start0]
    cases hd : dstep g1 O1 blocked endN st with
    | stop s2 => rfl
    | next s2 =>
      exact ih s2 (dstep_safe_next hS hd) (dstep_next_inv Hw1 Hd1 hS hC hd).1

/-- C8: the result of `find_path` (both path and cost) is unchanged between
two runs that differ only in whether `start` is in the obstacle set, or only
in the value of `start`'s delay attribute: the graphs share the edge list
and agree on every delay except possibly at `start`, and the obstacle sets
agree except possibly at `start`.  Stated for graphs satisfying the spec's
data-model invariants (strictly positive weights, non-negative delays),
which the program maintains: start's obstacle status is never checked and
start's delay is never charged. -/
theorem find_path_start_insensitive (g1 g2 : Graph) (O1 O2 : List Nat)
    (blocked : List (Nat × Nat)) (s e : Nat)
    (Hw1 : PosWeights g1) (Hd1 : NonnegDelays g1) (Hd2 : NonnegDelays g2)
    (hedges : g1.edges = g2.edges)
    (hdel : ∀ v, v ≠ s → g1.delay v = g2.delay v)
    (hobst : ∀ v, v ≠ s → O1.contains v = O2.contains v) :
    find_path g1 O1 blocked s e = find_path g2 O2 blocked s e := by
  have Hw2 : PosWeights g2 := posWeights_congr hedges Hw1
  have hS1 := safeInv_init g1 O1 blocked s
  have hC1 := costInv_init g1 O1 blocked s
  have hS2 := safeInv_init g2 O2 blocked s
  have hC2 := costInv_init g2 O2 blocked s
  have h1some := @dloop_isSome g1 O1 blocked s e Hw1 Hd1 (fuelBound g1 s) (initState s)
    hS1 hC1 (mu_init_le g1 s)
  have h2some := @dloop_isSome g2 O2 blocked s e Hw2 Hd2 (fuelBound g2 s) (initState s)
    hS2 hC2 (mu_init_le g2 s)
  obtain ⟨T1, hdl1⟩ := Option.isSome_iff_exists.mp h1some
  obtain ⟨T2, hdl2⟩ := Option.isSome_iff_exists.mp h2some
  have hdl1x : dloop g1 O1 blocked e (fuelBound g2 s) (initState s) = some T2 := by
    rw [dloop_congr Hw1 Hd1 Hd2 hedges hdel hobst (fuelBound g2 s) (initState s) hS1 hC1]
    exact hdl2
  have hTT : T1 = T2 := by
    rcases le_total (fuelBound g1 s) (fuelBound g2 s) with hle | hle
    · have h := dloop_mono (fuelBound g1 s) (fuelBound g2 s) (initState s) T1 hle hdl1
      rw [hdl1x] at h
      simp only [Option.some.injEq] at h
      exact h.symm
    · have h := dloop_mono (fuelBound g2 s) (fuelBound g1 s) (initState s) T2 hle hdl1x
      rw [hdl1] at h
      simp only [Option.some.injEq] at h
      exact h
  subst hTT
  have hST1 := dloop_safe _ _ _ hS1 hdl1
  have hCP1 := dloop_cost Hw1 Hd1 _ _ _ hS1 hC1 hdl1
  have hST2 := dloop_safe _ _ _ hS2 hdl2
  have hCP2 := dloop_cost Hw2 Hd2 _ _ _ hS2 hC2 hdl2
  rw [find_path_eq g1 O1 blocked s e, find_path_eq g2 O2 blocked s e, hdl1, hdl2]
  dsimp only
  cases hce : T1.costs e with
  | none =>
    have hes : e ≠ s := by
      intro h
      rw [h, hCP1.2.1] at hce
      exact absurd hce (by simp)
    have hv : T1.visited e = none := by
      cases hv : T1.visited e with
      | none => rfl
      | some u =>
        obtain ⟨cu, cv, -, h2, -⟩ := hST1.visitedCosts e u hv
        rw [hce] at h2
        exact absurd h2 (by simp)
    have hp1 : pathFuel g1 s = potNone g1 s + 1 := rfl
    have hp2 : pathFuel g2 s = potNone g2 s + 1 := rfl
    rw [hp1, hp2]
    simp [buildPath, hes, hv]
  | some ce =>
    have hf1 : ce.toNat < pathFuel g1 s := by
      have h1 := cost_le_potNone hCP1.1 hCP1.2.2 hce
      rw [pathFuel, potNone]
      omega
    have hf2 : ce.toNat < pathFuel g2 s := by
      have h1 := cost_le_potNone hCP2.1 hCP2.2.2 hce
      rw [pathFuel, potNone]
      omega
    obtain ⟨ch1, hbp1, -, -, -, -, -⟩ :=
      buildPath_success Hw1 Hd1 hST1.visitedTotal hST1.visitedCosts hST1.visitedStep
        hCP1.1 hCP1.2.1 (pathFuel g1 s) e ce [] hce hf1
    obtain ⟨ch2, hbp2, -, -, -, -, -⟩ :=
      buildPath_success Hw2 Hd2 hST2.visitedTotal hST2.visitedCosts hST2.visitedStep
        hCP2.1 hCP2.2.1 (pathFuel g2 s) e ce [] hce hf2
    have hq : ((s :: ch1 : List Nat) ++ []) = ((s :: ch2) ++ []) := by
      rcases le_total (pathFuel g1 s) (pathFuel g2 s) with hle | hle
      · have h := buildPath_mono (pathFuel g1 s) (pathFuel g2 s) e [] ((s :: ch1) ++ [])
          hle hbp1
        rw [hbp2] at h
        simp only [Option.some.injEq] at h
        exact h.symm
      · have h := buildPath_mono (pathFuel g2 s) (pathFuel g1 s) e [] ((s :: ch2) ++ [])
          hle hbp2
        rw [hbp1] at h
        simp only [Option.some.injEq] at h
        exact h
    rw [hbp1, hbp2]
    dsimp only
    rw [hq]

/-- Witness for C8: on the line graph, putting the start node into the
obstacle set and raising its delay to 5 leaves the result unchanged. -/
theorem find_path_start_insensitive_witness :
    find_path lineGraph [] [] 0 3 = find_path lineGraphStart [0] [] 0 3 :=
  find_path_start_insensitive lineGraph lineGraphStart [] [0] [] 0 3
    (by unfold PosWeights; decide) (by unfold NonnegDelays; decide)
    (by unfold NonnegDelays; decide) rfl
    (by
      intro v hv
      have h0 : ((0 : Nat) == v) = false := by simpa using Ne.symm hv
      simp [Graph.delay, lineGraph, lineGraphStart, List.find?, h0])
    (by
      intro v hv
      have h0 : ((v : Nat) == 0) = false := by simpa using hv
      simp [List.contains, h0]
      exact hv)

end Evac
